import Mathlib

/-!
Verification of hamwalk, a backtracking search for a Hamiltonian cycle.

Shallow embedding of `main.cpp` (isSafe, hamWalk, hamiltonian, makeGraph),
followed by the properties proved of it. The timing statistics of `main` are
`float` arithmetic on clock readings and are not part of the embedding.

Modelling conventions.

* C `int` values are `Int`; no arithmetic in the modelled functions can leave the
  range of `int` for arrays that fit in memory, so no wrap-around is modelled.
* `bool **graph` is a list of rows (`List (List Bool)`); `int path[]` is a `List Int`.
  Every array read and write is bounds checked: an access outside the array is
  undefined behaviour in C++ and is reported here as `Fault.outOfBounds`.
* A `for` loop whose trip count is known on entry is a recursion on that count.
* The recursion of `hamWalk` is a recursion on a fuel counter; `hamWalk` itself
  supplies a fuel that is never exhausted.
* `std::rand()` is a stream `rand : Nat → Nat` of non-negative values together with
  the number of values consumed so far.
* `sleep` only passes time; it is a hook without effect on the program state.
* `hamWalkChecked` is `hamWalk` with a check of the path invariant at the entry
  of every call; a failed check is reported as `Fault.invariantViolated`.
-/

namespace HamWalk

/-- The ways in which a modelled run can fail to produce a value. -/
inductive Fault where
  | outOfBounds
  | outOfFuel
  | invariantViolated
  deriving DecidableEq

/-- The result of a modelled run. -/
inductive Res (α : Type) where
  | ok (a : α)
  | fault (f : Fault)
  deriving DecidableEq

/-- Sequencing of runs: a fault stops the run. -/
def Res.bind {α β : Type} (r : Res α) (f : α → Res β) : Res β :=
  match r with
  | Res.ok a => f a
  | Res.fault e => Res.fault e

/-- The adjacency matrix `bool **graph`: a list of rows. -/
abbrev Graph := List (List Bool)

/-- The read `path[i]`. -/
def readPath (path : List Int) (i : Int) : Res Int :=
  if 0 ≤ i then
    match path[i.toNat]? with
    | some x => Res.ok x
    | none => Res.fault Fault.outOfBounds
  else Res.fault Fault.outOfBounds

/-- The write `path[i] = x`. -/
def writePath (path : List Int) (i : Int) (x : Int) : Res (List Int) :=
  if 0 ≤ i ∧ i.toNat < path.length then Res.ok (path.set i.toNat x)
  else Res.fault Fault.outOfBounds

/-- The read `graph[a][b]`. -/
def readGraph (graph : Graph) (a b : Int) : Res Bool :=
  if 0 ≤ a ∧ 0 ≤ b then
    match graph[a.toNat]? with
    | some row =>
      match row[b.toNat]? with
      | some x => Res.ok x
      | none => Res.fault Fault.outOfBounds
    | none => Res.fault Fault.outOfBounds
  else Res.fault Fault.outOfBounds

/-- The write `graph[a][b] = x`. -/
def writeGraph (graph : Graph) (a b : Int) (x : Bool) : Res Graph :=
  if 0 ≤ a ∧ 0 ≤ b then
    match graph[a.toNat]? with
    | some row =>
      if b.toNat < row.length then Res.ok (graph.set a.toNat (row.set b.toNat x))
      else Res.fault Fault.outOfBounds
    | none => Res.fault Fault.outOfBounds
  else Res.fault Fault.outOfBounds

/-- The loop `for (int i = 0; i < pos; ++i) if (path[i] == v) return false;` of
`isSafe`, followed by its `return true`: `k` iterations remain, the next one at
index `i`. -/
def isSafeLoop (v : Int) (path : List Int) : Nat → Int → Res Bool
  | 0, _ => Res.ok true
  | k + 1, i =>
    (readPath path i).bind fun x =>
      if x = v then Res.ok false else isSafeLoop v path k (i + 1)

/-- The function `bool isSafe(int v, bool **graph, int path[], int pos)`. -/
def isSafe (v : Int) (graph : Graph) (path : List Int) (pos : Int) : Res Bool :=
  (readPath path (pos - 1)).bind fun last =>
    (readGraph graph last v).bind fun e =>
      if e = false then Res.ok false
      else isSafeLoop v path pos.toNat 0

/-- The function `void sleep(int ms)`: a busy wait. It changes nothing but the time. -/
def sleep (_ms : Int) : Unit := ()

/-- The loop `for (int v = 1; v < n; ++v) { ... }` of `hamWalk`, followed by its
`return false`: `k` iterations remain, the next one for candidate `v`. The
recursive call `hamWalk(graph, n, path, pos + 1, sleepy)` is `walk`. The result
is the returned flag and the contents of `path` on return. -/
def hamLoop (walk : List Int → Res (Bool × List Int)) (graph : Graph) (pos : Int) :
    Nat → Int → List Int → Res (Bool × List Int)
  | 0, _, path => Res.ok (false, path)
  | k + 1, v, path =>
    (isSafe v graph path pos).bind fun safe =>
      if safe then
        (writePath path pos v).bind fun path1 =>
          (walk path1).bind fun r =>
            if r.1 = true then Res.ok (true, r.2)
            else (writePath r.2 pos (-1)).bind fun path2 =>
              hamLoop walk graph pos k (v + 1) path2
      else hamLoop walk graph pos k (v + 1) path

/-- The function `bool hamWalk(bool **graph, int n, int path[], int pos, bool sleepy)` with a
bound `fuel` on the depth of the recursion. The result is the returned flag and
the contents of `path` on return. -/
def hamWalkFuel : Nat → Graph → Int → List Int → Int → Bool → Res (Bool × List Int)
  | 0, _, _, _, _, _ => Res.fault Fault.outOfFuel
  | fuel + 1, graph, n, path, pos, sleepy =>
    let _u : Unit := if sleepy then sleep 10 else ()
    if pos = n then
      (readPath path (pos - 1)).bind fun last =>
        (readPath path 0).bind fun first =>
          (readGraph graph last first).bind fun e => Res.ok (e, path)
    else
      hamLoop (fun p => hamWalkFuel fuel graph n p (pos + 1) sleepy) graph pos
        (n - 1).toNat 1 path

/-- The depth of recursion that `hamWalk` can reach from `pos`: every level
below the first one follows a write `path[pos]` that was in bounds. -/
def hamFuel (n : Int) (path : List Int) (pos : Int) : Nat :=
  (max n (path.length : Int) - pos).toNat + 1

/-- The function `bool hamWalk(bool **graph, int n, int path[], int pos, bool sleepy)`. -/
def hamWalk (graph : Graph) (n : Int) (path : List Int) (pos : Int) (sleepy : Bool) :
    Res (Bool × List Int) :=
  hamWalkFuel (hamFuel n path pos) graph n path pos sleepy

/-- The function `bool hamiltonian(bool **graph, int n, bool sleepy, bool verbose)`.
Its local array `path` is filled with `-1` and `path[0]` is set to 0. The result
is the returned flag and the contents of `path` on return; `verbose` only
selects console output. -/
def hamiltonian (graph : Graph) (n : Int) (sleepy : Bool) (_verbose : Bool) :
    Res (Bool × List Int) :=
  (writePath (List.replicate n.toNat (-1)) 0 0).bind fun path =>
    hamWalk graph n path 1 sleepy

/-- The inner loop `for (int j = i + 1; j < n; ++j) { ... }` of `makeGraph`:
`k` iterations remain, the next one at column `j`; `s` values of the random
stream have been consumed. -/
def makeGraphRow (rate : Int) (rand : Nat → Nat) (i : Int) :
    Nat → Int → Graph → Nat → Res (Graph × Nat)
  | 0, _, graph, s => Res.ok (graph, s)
  | k + 1, j, graph, s =>
    (writeGraph graph i j (decide (((rand s % 100 : Nat) : Int) ≤ rate))).bind fun g1 =>
      (readGraph g1 i j).bind fun e =>
        (writeGraph g1 j i e).bind fun g2 =>
          makeGraphRow rate rand i k (j + 1) g2 (s + 1)

/-- The outer loop `for (int i = 0; i < n; ++i) { ... }` of `makeGraph`: `k`
iterations remain, the next one at row `i`. -/
def makeGraphRows (rate : Int) (rand : Nat → Nat) (n : Int) :
    Nat → Int → Graph → Nat → Res (Graph × Nat)
  | 0, _, graph, s => Res.ok (graph, s)
  | k + 1, i, graph, s =>
    (writeGraph graph i i false).bind fun g1 =>
      (makeGraphRow rate rand i (n - (i + 1)).toNat (i + 1) g1 s).bind fun r =>
        makeGraphRows rate rand n k (i + 1) r.1 r.2

/-- The function `void makeGraph(bool **graph, int n, int rate)`, started when `s` values of
the random stream have been consumed. The result is the matrix on return and
the number of values consumed by then. -/
def makeGraph (graph : Graph) (n rate : Int) (rand : Nat → Nat) (s : Nat) :
    Res (Graph × Nat) :=
  makeGraphRows rate rand n n.toNat 0 graph s

/-! ## Specification vocabulary -/

/-- The matrix has `n` rows of `n` entries, as allocated by `makeArray(n)`. -/
def Square (graph : Graph) (n : Nat) : Prop :=
  graph.length = n ∧ ∀ row ∈ graph, row.length = n

instance (graph : Graph) (n : Nat) : Decidable (Square graph n) :=
  inferInstanceAs (Decidable (graph.length = n ∧ ∀ row ∈ graph, row.length = n))

/-- The entry `graph[a][b]` is in bounds and true. -/
def Edge (graph : Graph) (a b : Int) : Prop :=
  readGraph graph a b = Res.ok true

instance (graph : Graph) (a b : Int) : Decidable (Edge graph a b) :=
  inferInstanceAs (Decidable (readGraph graph a b = Res.ok true))

/-- The expression `graph[path[i]][path[j]]`. -/
def edgeAt (graph : Graph) (path : List Int) (i j : Int) : Res Bool :=
  (readPath path i).bind fun a => (readPath path j).bind fun b => readGraph graph a b

/-- The list `a, a+1, ..., a+k-1`. -/
def upFrom : Int → Nat → List Int
  | _, 0 => []
  | a, k + 1 => a :: upFrom (a + 1) k

/-- The vertices `0, 1, ..., n-1` in increasing order. -/
def vertices (n : Int) : List Int :=
  upFrom 0 n.toNat

/-- The list `path` is a Hamiltonian cycle through vertex 0: a permutation of
the vertices `0..n-1` with `path[0] = 0`, an edge from `path[k]` to `path[k+1]`
for every `0 ≤ k < n-1`, and an edge from `path[n-1]` to `path[0]`. -/
def HamCycle (graph : Graph) (n : Int) (path : List Int) : Prop :=
  path.Perm (vertices n) ∧ readPath path 0 = Res.ok 0 ∧
  (∀ k : Int, 0 ≤ k → k < n - 1 → edgeAt graph path k (k + 1) = Res.ok true) ∧
  edgeAt graph path (n - 1) 0 = Res.ok true

instance (graph : Graph) (n : Int) (path : List Int) : Decidable (HamCycle graph n path) :=
  inferInstanceAs (Decidable (path.Perm (vertices n) ∧ readPath path 0 = Res.ok 0 ∧
    (∀ k : Int, 0 ≤ k → k < n - 1 → edgeAt graph path k (k + 1) = Res.ok true) ∧
    edgeAt graph path (n - 1) 0 = Res.ok true))

/-- The matrix has `n` rows of `n` entries and `graph[i][j]` is `adj i j`. -/
def HasEntries (graph : Graph) (n : Nat) (adj : Nat → Nat → Bool) : Prop :=
  Square graph n ∧
    ∀ i : Nat, i < n → ∀ j : Nat, j < n → readGraph graph (i : Int) (j : Int) = Res.ok (adj i j)

instance (graph : Graph) (n : Nat) (adj : Nat → Nat → Bool) :
    Decidable (HasEntries graph n adj) :=
  inferInstanceAs (Decidable (Square graph n ∧
    ∀ i : Nat, i < n → ∀ j : Nat, j < n →
      readGraph graph (i : Int) (j : Int) = Res.ok (adj i j)))

/-- Adjacency of the simple cycle `0-1-...-(n-1)-0`: the edges `{i, i+1}` and
the edge `{n-1, 0}`, in both directions, and nothing else. -/
def cycleAdj (n : Nat) (i j : Nat) : Bool :=
  decide (j = i + 1 ∨ i = j + 1 ∨ (i = n - 1 ∧ j = 0) ∨ (i = 0 ∧ j = n - 1))

/-- Adjacency of the complete graph: every off-diagonal entry true, the
diagonal false. -/
def completeAdj (i j : Nat) : Bool :=
  decide (i ≠ j)

/-- The comparison `std::rand() % 100 <= rate` on value number `s` of the
random stream. -/
def sampleEdge (rate : Int) (rand : Nat → Nat) (s : Nat) : Bool :=
  decide (((rand s % 100 : Nat) : Int) ≤ rate)

/-- The number of unordered pairs `(a, b)`, `a < b < n`, with `a < i`: the pairs
of the rows before row `i`. -/
def rowStart (n : Nat) : Nat → Nat
  | 0 => 0
  | i + 1 => rowStart n i + (n - 1 - i)

/-- The position of the pair `(i, j)`, `i < j < n`, in the row-major order of
all such pairs. -/
def pairIndex (n i j : Nat) : Nat :=
  rowStart n i + (j - i - 1)

/-- The last element of `a :: t`. -/
def lastOf : Int → List Int → Int
  | a, [] => a
  | _, b :: t => lastOf b t

/-- The list `t` completes the path so far, `init ++ [last]`, whose first vertex
is `first`, to a cycle on `n` vertices: the whole has `n` pairwise distinct
entries, the new ones are candidates of the search (`1 ≤ x < n`), each new entry
follows an edge, and an edge leads from the final entry back to `first`. -/
def Completes (graph : Graph) (n : Nat) (first : Int) (init : List Int) (last : Int)
    (t : List Int) : Prop :=
  init.length + 1 + t.length = n ∧ (init ++ last :: t).Nodup ∧
  (∀ x ∈ t, 1 ≤ x ∧ x < (n : Int)) ∧ List.Chain (Edge graph) last t ∧
  Edge graph (lastOf last t) first

/-- What a call of `hamWalk` on the path `init ++ last :: junk` at position
`init.length + 1` establishes, for the returned flag `b` and the path `out` on
return. On success the path is the path so far followed by a completion, the
least one in lexicographic order. On failure the path so far is kept, no
completion exists, and slots that all held `-1` hold `-1` again. -/
def WalkPost (graph : Graph) (n : Nat) (first : Int) (init : List Int) (last : Int)
    (junk : List Int) (b : Bool) (out : List Int) : Prop :=
  (b = true → ∃ t, out = init ++ last :: t ∧ Completes graph n first init last t ∧
      ∀ t', Completes graph n first init last t' → t = t' ∨ List.Lex (· < ·) t t') ∧
  (b = false → (∃ junk', out = init ++ last :: junk' ∧ junk'.length = junk.length ∧
      ((∀ x ∈ junk, x = -1) → junk' = junk)) ∧ ∀ t, ¬ Completes graph n first init last t)

/-- Adjacency of the open path `0-1-...-(n-1)`: the edges `{i, i+1}`, in both
directions, and nothing else. -/
def pathAdj (i j : Nat) : Bool :=
  decide (j = i + 1 ∨ i = j + 1)

/-- The PathState invariant at the entry of a call
`hamWalk(graph, n, path, pos, _)`: `1 ≤ pos ≤ n`, `path[0] = 0`, the assigned
slots `path[0..pos-1]` hold pairwise distinct vertex ids in `[0, n)`, and every
slot at an index `≥ pos` holds the sentinel `-1`. -/
def PathInv (n : Int) (path : List Int) (pos : Int) : Prop :=
  1 ≤ pos ∧ pos ≤ n ∧ readPath path 0 = Res.ok 0 ∧ (path.take pos.toNat).Nodup ∧
  (∀ x ∈ path.take pos.toNat, 0 ≤ x ∧ x < n) ∧ ∀ x ∈ path.drop pos.toNat, x = -1

instance (n : Int) (path : List Int) (pos : Int) : Decidable (PathInv n path pos) :=
  inferInstanceAs (Decidable (1 ≤ pos ∧ pos ≤ n ∧ readPath path 0 = Res.ok 0 ∧
    (path.take pos.toNat).Nodup ∧ (∀ x ∈ path.take pos.toNat, 0 ≤ x ∧ x < n) ∧
    ∀ x ∈ path.drop pos.toNat, x = -1))

/-- The function `hamWalk` with a check at the entry of every call: a call whose
arguments violate `PathInv` ends the run with `Fault.invariantViolated`. Apart
from the check, the body is that of `hamWalkFuel`, recursive call included. -/
def hamWalkChecked : Nat → Graph → Int → List Int → Int → Bool → Res (Bool × List Int)
  | 0, _, _, _, _, _ => Res.fault Fault.outOfFuel
  | fuel + 1, graph, n, path, pos, sleepy =>
    if PathInv n path pos then
      let _u : Unit := if sleepy then sleep 10 else ()
      if pos = n then
        (readPath path (pos - 1)).bind fun last =>
          (readPath path 0).bind fun first =>
            (readGraph graph last first).bind fun e => Res.ok (e, path)
      else
        hamLoop (fun p => hamWalkChecked fuel graph n p (pos + 1) sleepy) graph pos
          (n - 1).toNat 1 path
    else Res.fault Fault.invariantViolated

/-- The function `hamiltonian` with the check of `hamWalkChecked` at the entry
of every call of `hamWalk`. -/
def hamiltonianChecked (graph : Graph) (n : Int) (sleepy : Bool) (_verbose : Bool) :
    Res (Bool × List Int) :=
  (writePath (List.replicate n.toNat (-1)) 0 0).bind fun path =>
    hamWalkChecked (hamFuel n path 1) graph n path 1 sleepy

/-! ## Array accesses -/

theorem Res.bind_ok {α β : Type} (a : α) (f : α → Res β) : (Res.ok a).bind f = f a := rfl

theorem Res.bind_fault {α β : Type} (e : Fault) (f : α → Res β) :
    (Res.fault e : Res α).bind f = Res.fault e := rfl

theorem readPath_ok_iff (path : List Int) (i x : Int) :
    readPath path i = Res.ok x ↔ 0 ≤ i ∧ path[i.toNat]? = some x := by
  unfold readPath
  by_cases h : 0 ≤ i
  · simp only [h, if_true, true_and]
    cases hx : path[i.toNat]? with
    | none => simp
    | some y => simp
  · simp [h]

theorem readPath_natCast (path : List Int) (i : Nat) (x : Int) (h : path[i]? = some x) :
    readPath path (i : Int) = Res.ok x := by
  rw [readPath_ok_iff]; simpa using h

theorem readPath_last (init : List Int) (last : Int) (junk : List Int) (pos : Int)
    (hpos : pos = init.length + 1) :
    readPath (init ++ last :: junk) (pos - 1) = Res.ok last := by
  have : pos - 1 = ((init.length : Nat) : Int) := by omega
  rw [this]
  apply readPath_natCast
  rw [List.getElem?_append_right (le_refl _)]
  simp

theorem readPath_first (init : List Int) (last : Int) (junk : List Int) (first : Int)
    (hfirst : (init ++ [last]).head? = some first) :
    readPath (init ++ last :: junk) 0 = Res.ok first := by
  have : (0 : Int) = ((0 : Nat) : Int) := rfl
  rw [this]
  apply readPath_natCast
  cases init with
  | nil => simpa using hfirst
  | cons a as => simpa using hfirst

theorem writePath_next (init : List Int) (last j : Int) (js : List Int) (pos v : Int)
    (hpos : pos = init.length + 1) :
    writePath (init ++ last :: j :: js) pos v = Res.ok ((init ++ [last]) ++ v :: js) := by
  have h1 : pos.toNat = init.length + 1 := by omega
  unfold writePath
  have h2 : 0 ≤ pos ∧ pos.toNat < (init ++ last :: j :: js).length := by
    constructor
    · omega
    · simp; omega
  rw [if_pos h2, h1]
  congr 1
  rw [List.set_append_right _ _ (by omega)]
  simp

theorem readGraph_square (graph : Graph) (n : Nat) (hsq : Square graph n) (a b : Int)
    (ha : 0 ≤ a ∧ a < n) (hb : 0 ≤ b ∧ b < n) : ∃ e, readGraph graph a b = Res.ok e := by
  obtain ⟨hlen, hrow⟩ := hsq
  have h1 : a.toNat < graph.length := by omega
  unfold readGraph
  rw [if_pos ⟨ha.1, hb.1⟩, List.getElem?_eq_getElem h1]
  have h2 : b.toNat < (graph[a.toNat]).length := by
    rw [hrow _ (List.getElem_mem h1)]; omega
  simp only [List.getElem?_eq_getElem h2]
  exact ⟨_, rfl⟩

/-! ## isSafe -/

theorem isSafeLoop_eq (v : Int) (path : List Int) :
    ∀ (k i : Nat), i + k ≤ path.length →
      isSafeLoop v path k (i : Int) = Res.ok (decide (v ∉ (path.drop i).take k)) := by
  intro k
  induction k with
  | zero => intro i _; simp [isSafeLoop]
  | succ k ih =>
    intro i hi
    have hlt : i < path.length := by omega
    have hread : readPath path (i : Int) = Res.ok path[i] :=
      readPath_natCast path i _ (List.getElem?_eq_getElem hlt)
    have hnext : ((i : Int) + 1) = ((i + 1 : Nat) : Int) := by push_cast; rfl
    rw [isSafeLoop, hread, Res.bind_ok, hnext, ih (i + 1) (by omega)]
    rw [List.drop_eq_getElem_cons hlt, List.take_succ_cons]
    by_cases hx : path[i] = v
    · simp [hx]
    · have hx2 : ¬ v = path[i] := fun h => hx h.symm
      simp [hx, hx2]

theorem isSafe_eq (v : Int) (graph : Graph) (path : List Int) (pos last : Int) (e : Bool)
    (h1 : readPath path (pos - 1) = Res.ok last) (h2 : readGraph graph last v = Res.ok e) :
    isSafe v graph path pos = Res.ok (e && decide (v ∉ path.take pos.toNat)) := by
  obtain ⟨hp, hget⟩ := (readPath_ok_iff _ _ _).1 h1
  have hlen : (pos - 1).toNat < path.length := by
    by_contra hcon
    rw [List.getElem?_eq_none (by omega)] at hget
    exact Option.noConfusion hget
  unfold isSafe
  rw [h1, Res.bind_ok, h2, Res.bind_ok]
  cases e with
  | false => simp
  | true =>
    have h0 : (0 : Int) = ((0 : Nat) : Int) := rfl
    rw [if_neg (by simp), h0, isSafeLoop_eq v path pos.toNat 0 (by omega)]
    simp

theorem isSafe_state (graph : Graph) (n : Nat) (hsq : Square graph n) (init : List Int)
    (last : Int) (junk : List Int) (pos v : Int) (hpos : pos = init.length + 1)
    (hlast : 0 ≤ last ∧ last < n) (hv : 0 ≤ v ∧ v < n) :
    isSafe v graph (init ++ last :: junk) pos
      = Res.ok (decide (Edge graph last v ∧ v ∉ init ++ [last])) := by
  obtain ⟨e, he⟩ := readGraph_square graph n hsq last v hlast hv
  rw [isSafe_eq v graph _ pos last e (readPath_last init last junk pos hpos) he]
  have h1 : pos.toNat = (init ++ [last]).length := by simp; omega
  have h2 : init ++ last :: junk = (init ++ [last]) ++ junk := by simp
  rw [h1, h2, List.take_left]
  congr 1
  cases e <;> simp [Edge, he]

/-! ## The search -/

theorem completes_cons (graph : Graph) (n : Nat) (first : Int) (init : List Int)
    (last x : Int) (t : List Int) :
    Completes graph n first init last (x :: t) ↔
      Edge graph last x ∧ (1 ≤ x ∧ x < (n : Int)) ∧
        Completes graph n first (init ++ [last]) x t := by
  unfold Completes
  simp only [List.length_cons, List.length_append, List.length_nil, List.chain_cons,
    List.forall_mem_cons, lastOf, List.append_assoc, List.singleton_append]
  constructor
  · rintro ⟨h1, h2, ⟨h3, h4⟩, ⟨h5, h6⟩, h7⟩
    exact ⟨h5, h3, by omega, h2, h4, h6, h7⟩
  · rintro ⟨h5, h3, h1, h2, h4, h6, h7⟩
    exact ⟨by omega, h2, ⟨h3, h4⟩, ⟨h5, h6⟩, h7⟩

theorem completes_head_not_mem (graph : Graph) (n : Nat) (first : Int) (init : List Int)
    (last x : Int) (t : List Int) (h : Completes graph n first init last (x :: t)) :
    x ∉ init ++ [last] := by
  have hnd : (init ++ last :: x :: t).Nodup := h.2.1
  have h2 : init ++ last :: x :: t = (init ++ [last]) ++ x :: t := by simp
  rw [h2, List.nodup_append] at hnd
  intro hx
  exact hnd.2.2 hx (List.mem_cons_self _ _)

theorem completes_nil (graph : Graph) (n : Nat) (first : Int) (init : List Int)
    (last : Int) (hn : init.length + 1 = n) (t : List Int) :
    Completes graph n first init last t ↔
      t = [] ∧ (init ++ [last]).Nodup ∧ Edge graph last first := by
  constructor
  · intro h
    have hlen : t.length = 0 := by have := h.1; omega
    have ht : t = [] := List.length_eq_zero.1 hlen
    subst ht
    exact ⟨rfl, h.2.1, h.2.2.2.2⟩
  · rintro ⟨rfl, h1, h2⟩
    exact ⟨by simpa using hn, h1, by simp, List.Chain.nil, h2⟩

theorem hamLoop_spec (graph : Graph) (n : Nat) (hsq : Square graph n) (first : Int)
    (init : List Int) (last : Int) (pos : Int) (hpos : pos = init.length + 1)
    (hlast : 0 ≤ last ∧ last < n) (m : Nat) (hm : init.length + 1 + (m + 1) = n)
    (walk : List Int → Res (Bool × List Int))
    (hwalk : ∀ (v : Int) (js : List Int), js.length = m → 1 ≤ v → v < n →
      v ∉ init ++ [last] →
      ∃ b out, walk ((init ++ [last]) ++ v :: js) = Res.ok (b, out) ∧
        WalkPost graph n first (init ++ [last]) v js b out) :
    ∀ (k : Nat) (v : Int) (junk : List Int), v + k = n → 1 ≤ v → junk.length = m + 1 →
      (∀ x t, Completes graph n first init last (x :: t) → v ≤ x) →
      ∃ b out, hamLoop walk graph pos k v (init ++ last :: junk) = Res.ok (b, out) ∧
        WalkPost graph n first init last junk b out := by
  intro k
  induction k with
  | zero =>
    intro v junk hv _ hjunk hmin
    refine ⟨false, _, rfl, ?_, ?_⟩
    · intro h; exact Bool.noConfusion h
    · intro _
      refine ⟨⟨junk, rfl, rfl, fun _ => rfl⟩, ?_⟩
      intro t ht
      cases t with
      | nil =>
        have := ht.1
        simp at this
        omega
      | cons x t =>
        have h1 := hmin x t ht
        have h2 := ((completes_cons _ _ _ _ _ _ _).1 ht).2.1
        omega
  | succ k ih =>
    intro v junk hv hv1 hjunk hmin
    have hvn : v < n := by omega
    cases junk with
    | nil => simp at hjunk
    | cons j js =>
      have hjs : js.length = m := by simpa using hjunk
      rw [hamLoop, isSafe_state graph n hsq init last (j :: js) pos v hpos hlast ⟨by omega, hvn⟩,
        Res.bind_ok]
      by_cases hsafe : Edge graph last v ∧ v ∉ init ++ [last]
      · rw [decide_eq_true hsafe, if_pos rfl, writePath_next init last j js pos v hpos,
          Res.bind_ok]
        obtain ⟨b, out, hw, hpost⟩ := hwalk v js hjs hv1 hvn hsafe.2
        rw [hw, Res.bind_ok]
        cases b with
        | true =>
          obtain ⟨t1, hout, hcomp, hleast⟩ := hpost.1 rfl
          refine ⟨true, out, by simp, ?_, ?_⟩
          · intro _
            refine ⟨v :: t1, by simp [hout], ?_, ?_⟩
            · exact (completes_cons _ _ _ _ _ _ _).2 ⟨hsafe.1, ⟨hv1, hvn⟩, hcomp⟩
            · intro t2 ht2
              cases t2 with
              | nil =>
                have := ht2.1
                simp at this
                omega
              | cons x t3 =>
                have hx := hmin x t3 ht2
                rcases lt_or_eq_of_le hx with hlt | heq
                · exact Or.inr (List.Lex.rel hlt)
                · subst heq
                  have h3 := ((completes_cons _ _ _ _ _ _ _).1 ht2).2.2
                  rcases hleast t3 h3 with h4 | h4
                  · exact Or.inl (by rw [h4])
                  · exact Or.inr (List.Lex.cons h4)
          · intro h; exact Bool.noConfusion h
        | false =>
          obtain ⟨⟨js1, hout, hlen1, hrestore⟩, hnone⟩ := hpost.2 rfl
          have hout2 : out = init ++ last :: v :: js1 := by simp [hout]
          have hwrite : writePath out pos (-1) = Res.ok (init ++ last :: (-1) :: js1) := by
            rw [hout2, writePath_next init last v js1 pos (-1) hpos]
            simp
          simp only [Bool.false_eq_true, if_false]
          rw [hwrite, Res.bind_ok]
          have hmin2 : ∀ x t, Completes graph n first init last (x :: t) → v + 1 ≤ x := by
            intro x t ht
            have hx := hmin x t ht
            rcases lt_or_eq_of_le hx with hlt | heq
            · omega
            · subst heq
              exact absurd ((completes_cons _ _ _ _ _ _ _).1 ht).2.2 (hnone t)
          obtain ⟨b, out2, hloop, hpost2⟩ :=
            ih (v + 1) ((-1) :: js1) (by omega) (by omega) (by simp [hlen1, hjs]) hmin2
          refine ⟨b, out2, hloop, hpost2.1, ?_⟩
          intro hb
          obtain ⟨⟨junk2, ho, hl, hr⟩, hno⟩ := hpost2.2 hb
          refine ⟨⟨junk2, ho, by simp at hl ⊢; omega, ?_⟩, hno⟩
          intro hall
          have hj : j = -1 := hall j (List.mem_cons_self _ _)
          have hjs1 : js1 = js := hrestore fun x hx => hall x (List.mem_cons_of_mem _ hx)
          rw [hj, ← hjs1]
          apply hr
          intro x hx
          rcases List.mem_cons.1 hx with h | h
          · exact h
          · exact hall x (List.mem_cons_of_mem _ (hjs1 ▸ h))
      · rw [decide_eq_false hsafe]
        simp only [Bool.false_eq_true, if_false]
        have hmin2 : ∀ x t, Completes graph n first init last (x :: t) → v + 1 ≤ x := by
          intro x t ht
          have hx := hmin x t ht
          rcases lt_or_eq_of_le hx with hlt | heq
          · omega
          · subst heq
            exact absurd ⟨((completes_cons _ _ _ _ _ _ _).1 ht).1,
              completes_head_not_mem _ _ _ _ _ _ _ ht⟩ hsafe
        exact ih (v + 1) (j :: js) (by omega) (by omega) hjunk hmin2

theorem hamWalkFuel_spec (graph : Graph) (n : Nat) (hsq : Square graph n) (first : Int)
    (sleepy : Bool) :
    ∀ (fuel : Nat) (init : List Int) (last : Int) (junk : List Int) (pos : Int),
      pos = init.length + 1 → junk.length < fuel → init.length + 1 + junk.length = n →
      (init ++ [last]).head? = some first →
      (∀ x ∈ init ++ [last], 0 ≤ x ∧ x < (n : Int)) → (init ++ [last]).Nodup →
      ∃ b out, hamWalkFuel fuel graph n (init ++ last :: junk) pos sleepy = Res.ok (b, out) ∧
        WalkPost graph n first init last junk b out := by
  intro fuel
  induction fuel with
  | zero => intro _ _ junk _ _ h; exact absurd h (Nat.not_lt_zero _)
  | succ fuel ih =>
    intro init last junk pos hpos hfuel hlen hfirst hrange hnd
    have hlast : 0 ≤ last ∧ last < (n : Int) := hrange last (by simp)
    have hfirstmem : first ∈ init ++ [last] := List.mem_of_mem_head? hfirst
    cases junk with
    | nil =>
      have hposn : pos = (n : Int) := by simp at hlen; omega
      obtain ⟨e, he⟩ := readGraph_square graph n hsq last first hlast (hrange first hfirstmem)
      have hrun : hamWalkFuel (fuel + 1) graph n (init ++ [last]) pos sleepy
          = Res.ok (e, init ++ [last]) := by
        simp only [hamWalkFuel]
        rw [if_pos hposn, readPath_last init last [] pos hpos, Res.bind_ok,
          readPath_first init last [] first hfirst, Res.bind_ok, he, Res.bind_ok]
      refine ⟨e, _, hrun, ?_, ?_⟩
      · intro he1
        subst he1
        refine ⟨[], rfl, (completes_nil graph n first init last (by simpa using hlen) []).2
          ⟨rfl, hnd, he⟩, ?_⟩
        intro t ht
        exact Or.inl ((completes_nil graph n first init last (by simpa using hlen) t).1 ht).1.symm
      · intro he1
        subst he1
        refine ⟨⟨[], rfl, rfl, fun _ => rfl⟩, ?_⟩
        intro t ht
        have h3 := ((completes_nil graph n first init last (by simpa using hlen) t).1 ht).2.2
        unfold Edge at h3
        rw [he] at h3
        exact Bool.noConfusion (Res.ok.inj h3)
    | cons j js =>
      have hlen2 : init.length + 1 + (js.length + 1) = n := by simpa using hlen
      have hposn : ¬ pos = (n : Int) := by omega
      have hrun : hamWalkFuel (fuel + 1) graph n (init ++ last :: j :: js) pos sleepy
          = hamLoop (fun p => hamWalkFuel fuel graph n p (pos + 1) sleepy) graph pos
              ((n : Int) - 1).toNat 1 (init ++ last :: j :: js) := by
        simp only [hamWalkFuel]
        rw [if_neg hposn]
      rw [hrun]
      apply hamLoop_spec graph n hsq first init last pos hpos hlast js.length hlen2
      · intro v js2 hjs2 hv1 hvn hvmem
        have hfuel2 : js2.length < fuel := by
          simp only [List.length_cons] at hfuel; omega
        apply ih (init ++ [last]) v js2 (pos + 1)
        · simp; omega
        · exact hfuel2
        · simp; omega
        · rw [List.head?_append_of_ne_nil _ (by simp)]; exact hfirst
        · intro x hx
          rcases List.mem_append.1 hx with h | h
          · exact hrange x h
          · have : x = v := by simpa using h
            omega
        · rw [List.nodup_append]
          refine ⟨hnd, by simp, ?_⟩
          intro a ha1 ha2
          have : a = v := by simpa using ha2
          exact hvmem (this ▸ ha1)
      · omega
      · exact le_refl _
      · simp
      · intro x t ht
        exact ((completes_cons _ _ _ _ _ _ _).1 ht).2.1.1

/-! ## Hamiltonian cycles -/

theorem mem_upFrom (k : Nat) : ∀ (a x : Int), x ∈ upFrom a k ↔ a ≤ x ∧ x < a + k := by
  induction k with
  | zero => intro a x; simp [upFrom]
  | succ k ih =>
    intro a x
    simp only [upFrom, List.mem_cons, ih]
    push_cast
    omega

theorem length_upFrom (k : Nat) : ∀ a : Int, (upFrom a k).length = k := by
  induction k with
  | zero => intro a; rfl
  | succ k ih => intro a; simp [upFrom, ih]

theorem nodup_upFrom (k : Nat) : ∀ a : Int, (upFrom a k).Nodup := by
  induction k with
  | zero => intro a; simp [upFrom]
  | succ k ih =>
    intro a
    simp only [upFrom, List.nodup_cons, mem_upFrom]
    exact ⟨by omega, ih _⟩

theorem perm_vertices_iff (N : Nat) (path : List Int) :
    path.Perm (vertices N) ↔
      path.length = N ∧ path.Nodup ∧ ∀ x ∈ path, 0 ≤ x ∧ x < (N : Int) := by
  have hmem : ∀ x, x ∈ vertices N ↔ 0 ≤ x ∧ x < (N : Int) := by
    intro x
    unfold vertices
    rw [mem_upFrom]
    simp
  have hlen : (vertices N).length = N := by
    unfold vertices
    rw [length_upFrom]
    simp
  constructor
  · intro h
    refine ⟨by rw [h.length_eq, hlen], h.nodup_iff.2 (nodup_upFrom _ _), ?_⟩
    intro x hx
    exact (hmem x).1 (h.subset hx)
  · rintro ⟨h1, h2, h3⟩
    apply List.Subperm.perm_of_length_le
    · exact List.subperm_of_subset h2 fun x hx => (hmem x).2 (h3 x hx)
    · omega

theorem edgeAt_ok_iff (graph : Graph) (path : List Int) (i j : Int) :
    edgeAt graph path i j = Res.ok true ↔
      ∃ a b, readPath path i = Res.ok a ∧ readPath path j = Res.ok b ∧ Edge graph a b := by
  unfold edgeAt Edge
  constructor
  · intro h
    cases h1 : readPath path i with
    | fault e => rw [h1] at h; exact Res.noConfusion h
    | ok a =>
      rw [h1, Res.bind_ok] at h
      cases h2 : readPath path j with
      | fault e => rw [h2] at h; exact Res.noConfusion h
      | ok b =>
        rw [h2, Res.bind_ok] at h
        exact ⟨a, b, rfl, rfl, h⟩
  · rintro ⟨a, b, h1, h2, h3⟩
    rw [h1, Res.bind_ok, h2, Res.bind_ok, h3]

theorem readPath_cons_succ (a : Int) (t : List Int) (k : Int) (hk : 0 ≤ k) (x : Int) :
    readPath (a :: t) (k + 1) = Res.ok x ↔ readPath t k = Res.ok x := by
  rw [readPath_ok_iff, readPath_ok_iff]
  have h : (k + 1).toNat = k.toNat + 1 := by omega
  rw [h, List.getElem?_cons_succ]
  constructor
  · intro h1; exact ⟨hk, h1.2⟩
  · intro h1; exact ⟨by omega, h1.2⟩

theorem readPath_cons_zero (a : Int) (t : List Int) (x : Int) :
    readPath (a :: t) 0 = Res.ok x ↔ a = x := by
  rw [readPath_ok_iff]
  simp

theorem edgeAt_cons_succ (graph : Graph) (a : Int) (t : List Int) (i j : Int)
    (hi : 0 ≤ i) (hj : 0 ≤ j) :
    edgeAt graph (a :: t) (i + 1) (j + 1) = Res.ok true ↔ edgeAt graph t i j = Res.ok true := by
  rw [edgeAt_ok_iff, edgeAt_ok_iff]
  simp only [readPath_cons_succ a t i hi, readPath_cons_succ a t j hj]

theorem chain_iff_edgeAt (graph : Graph) (t : List Int) :
    ∀ a : Int, List.Chain (Edge graph) a t ↔
      ∀ k : Int, 0 ≤ k → k < t.length → edgeAt graph (a :: t) k (k + 1) = Res.ok true := by
  induction t with
  | nil =>
    intro a
    simp only [List.length_nil, Nat.cast_zero]
    constructor
    · intro _ k h1 h2; omega
    · intro _; exact List.Chain.nil
  | cons b t ih =>
    intro a
    rw [List.chain_cons, ih b]
    constructor
    · rintro ⟨h1, h2⟩ k hk0 hk
      rcases eq_or_lt_of_le hk0 with h0 | hpos
      · subst h0
        rw [edgeAt_ok_iff]
        refine ⟨a, b, (readPath_cons_zero _ _ _).2 rfl, ?_, h1⟩
        exact (readPath_cons_succ a (b :: t) 0 (le_refl _) b).2 ((readPath_cons_zero _ _ _).2 rfl)
      · have hk1 : k = (k - 1) + 1 := by omega
        rw [hk1, edgeAt_cons_succ graph a (b :: t) (k - 1) (k - 1 + 1) (by omega) (by omega)]
        apply h2 (k - 1) (by omega)
        simp only [List.length_cons, Nat.cast_add, Nat.cast_one] at hk
        omega
    · intro h
      constructor
      · have h0 := h 0 (le_refl _) (by simp only [List.length_cons]; push_cast; omega)
        rw [edgeAt_ok_iff] at h0
        obtain ⟨x, y, hx, hy, hxy⟩ := h0
        have hx2 := (readPath_cons_zero _ _ _).1 hx
        have hy2 := (readPath_cons_zero _ _ _).1
          ((readPath_cons_succ a (b :: t) 0 (le_refl _) y).1 hy)
        rw [hx2, hy2]
        exact hxy
      · intro k hk0 hk
        have h1 := h (k + 1) (by omega) (by simp only [List.length_cons]; push_cast; omega)
        exact (edgeAt_cons_succ graph a (b :: t) k (k + 1) hk0 (by omega)).1 h1

theorem readPath_lastOf (t : List Int) :
    ∀ a : Int, readPath (a :: t) (t.length : Int) = Res.ok (lastOf a t) := by
  induction t with
  | nil => intro a; exact (readPath_cons_zero _ _ _).2 rfl
  | cons b t ih =>
    intro a
    have h : (((b :: t).length : Nat) : Int) = (t.length : Int) + 1 := by simp
    rw [h, readPath_cons_succ a (b :: t) _ (by omega)]
    exact ih b

theorem hamCycle_iff (graph : Graph) (N : Nat) (path : List Int) :
    HamCycle graph N path ↔ ∃ t, path = 0 :: t ∧ Completes graph N 0 [] 0 t := by
  constructor
  · rintro ⟨hperm, h0, hedges, hclose⟩
    cases path with
    | nil =>
      rw [readPath_ok_iff] at h0
      simp at h0
    | cons a t =>
      have ha : a = 0 := (readPath_cons_zero _ _ _).1 h0
      subst ha
      obtain ⟨hlen, hnd, hrange⟩ := (perm_vertices_iff N _).1 hperm
      simp only [List.length_cons] at hlen
      refine ⟨t, rfl, by simp only [List.length_nil]; omega, hnd, ?_, ?_, ?_⟩
      · intro x hx
        have h1 := hrange x (List.mem_cons_of_mem _ hx)
        have h2 : x ≠ 0 := by
          rintro rfl
          exact (List.nodup_cons.1 hnd).1 hx
        omega
      · rw [chain_iff_edgeAt]
        intro k hk0 hk
        exact hedges k hk0 (by omega)
      · rw [edgeAt_ok_iff] at hclose
        obtain ⟨x, y, hx, hy, hxy⟩ := hclose
        have h1 : ((N : Int) - 1) = (t.length : Int) := by omega
        rw [h1, readPath_lastOf] at hx
        have hy2 := (readPath_cons_zero _ _ _).1 hy
        rw [← Res.ok.inj hx, ← hy2] at hxy
        exact hxy
  · rintro ⟨t, rfl, hlen, hnd, hrange, hchain, hclose⟩
    simp only [List.length_nil] at hlen
    have hnd2 : (0 :: t).Nodup := hnd
    refine ⟨?_, (readPath_cons_zero _ _ _).2 rfl, ?_, ?_⟩
    · rw [perm_vertices_iff]
      refine ⟨by simp only [List.length_cons]; omega, hnd2, ?_⟩
      intro x hx
      rcases List.mem_cons.1 hx with h | h
      · omega
      · have := hrange x h
        omega
    · intro k hk0 hk
      exact (chain_iff_edgeAt graph t 0).1 hchain k hk0 (by omega)
    · rw [edgeAt_ok_iff]
      have h1 : ((N : Int) - 1) = (t.length : Int) := by omega
      exact ⟨lastOf 0 t, 0, by rw [h1, readPath_lastOf], (readPath_cons_zero _ _ _).2 rfl,
        hclose⟩

theorem hamiltonian_spec (graph : Graph) (N : Nat) (hN : 1 ≤ N) (hsq : Square graph N)
    (sleepy verbose : Bool) :
    ∃ b out, hamiltonian graph N sleepy verbose = Res.ok (b, out) ∧
      WalkPost graph N 0 [] 0 (List.replicate (N - 1) (-1)) b out := by
  obtain ⟨M, rfl⟩ : ∃ M, N = M + 1 := ⟨N - 1, by omega⟩
  have hw : writePath (List.replicate (((M + 1 : Nat) : Int)).toNat (-1)) 0 0
      = Res.ok (0 :: List.replicate M (-1)) := by
    unfold writePath
    simp [List.replicate_succ]
  unfold hamiltonian hamWalk
  rw [hw, Res.bind_ok]
  have h := hamWalkFuel_spec graph (M + 1) hsq 0 sleepy
    (hamFuel ((M + 1 : Nat) : Int) (0 :: List.replicate M (-1)) 1) [] 0
    (List.replicate M (-1)) 1 (by simp)
    (by unfold hamFuel; simp only [List.length_replicate, List.length_cons]; omega)
    (by simp; omega) (by simp) (by simp) (by simp)
  simpa using h

theorem hamiltonian_cases (graph : Graph) (n : Int) (hn : 1 ≤ n)
    (hsq : Square graph n.toNat) (sleepy verbose : Bool) :
    (∃ path, hamiltonian graph n sleepy verbose = Res.ok (true, path) ∧
      HamCycle graph n path ∧
      ∀ p, HamCycle graph n p → path = p ∨ List.Lex (· < ·) path p) ∨
    (hamiltonian graph n sleepy verbose
        = Res.ok (false, 0 :: List.replicate (n.toNat - 1) (-1)) ∧
      ∀ p, ¬ HamCycle graph n p) := by
  obtain ⟨N, rfl⟩ : ∃ N : Nat, n = N := ⟨n.toNat, by omega⟩
  have hN : 1 ≤ N := by omega
  simp only [Int.toNat_ofNat] at hsq ⊢
  obtain ⟨b, out, hrun, hpost⟩ := hamiltonian_spec graph N hN hsq sleepy verbose
  cases b with
  | true =>
    left
    obtain ⟨t, hout, hcomp, hleast⟩ := hpost.1 rfl
    have hout2 : out = 0 :: t := hout
    refine ⟨out, hrun, (hamCycle_iff graph N out).2 ⟨t, hout2, hcomp⟩, ?_⟩
    intro p hp
    obtain ⟨t2, hp2, hcomp2⟩ := (hamCycle_iff graph N p).1 hp
    rw [hout2, hp2]
    rcases hleast t2 hcomp2 with h | h
    · exact Or.inl (by rw [h])
    · exact Or.inr (List.Lex.cons h)
  | false =>
    right
    obtain ⟨⟨junk, hout, _, hrestore⟩, hnone⟩ := hpost.2 rfl
    have hj : junk = List.replicate (N - 1) (-1) :=
      hrestore fun x hx => (List.mem_replicate.1 hx).2
    have hout2 : out = 0 :: junk := hout
    refine ⟨by rw [hrun, hout2, hj], ?_⟩
    intro p hp
    obtain ⟨t2, _, hcomp2⟩ := (hamCycle_iff graph N p).1 hp
    exact hnone t2 hcomp2

theorem not_lex_upFrom (t : List Int) :
    ∀ a : Int, t.Nodup → (∀ x ∈ t, a ≤ x) → ¬ List.Lex (· < ·) t (upFrom a t.length) := by
  induction t with
  | nil => intro a _ _ h; simp only [List.length_nil, upFrom] at h; cases h
  | cons x t ih =>
    intro a hnd hge h
    simp only [List.length_cons, upFrom] at h
    have hx : a ≤ x := hge x (List.mem_cons_self _ _)
    cases h with
    | rel h => omega
    | cons h =>
      refine ih (x + 1) (List.nodup_cons.1 hnd).2 ?_ h
      intro y hy
      have h1 := hge y (List.mem_cons_of_mem _ hy)
      have h2 : y ≠ x := by
        rintro rfl
        exact (List.nodup_cons.1 hnd).1 hy
      omega

theorem edgeAt_vertices (graph : Graph) (N : Nat) (i j : Nat) (hi : i < N) (hj : j < N) :
    edgeAt graph (vertices N) i j = Res.ok true ↔ Edge graph i j := by
  have hread : ∀ (k : Nat) (a : Int) (m : Nat), m < k →
      readPath (upFrom a k) (m : Int) = Res.ok (a + m) := by
    intro k
    induction k with
    | zero => intro a m hm; omega
    | succ k ih =>
      intro a m hm
      cases m with
      | zero => exact (readPath_cons_zero _ _ _).2 (by simp)
      | succ m =>
        have h1 : (((m + 1 : Nat)) : Int) = (m : Int) + 1 := by simp
        rw [h1, upFrom, readPath_cons_succ _ _ _ (by omega), ih (a + 1) m (by omega)]
        congr 1
        omega
  have hv : vertices N = upFrom 0 N := by simp [vertices]
  rw [edgeAt_ok_iff, hv]
  constructor
  · rintro ⟨a, b, ha, hb, hab⟩
    rw [hread N 0 i hi] at ha
    rw [hread N 0 j hj] at hb
    have h1 : a = i := by have := Res.ok.inj ha; omega
    have h2 : b = j := by have := Res.ok.inj hb; omega
    rw [← h1, ← h2]
    exact hab
  · intro h
    exact ⟨i, j, by rw [hread N 0 i hi]; simp, by rw [hread N 0 j hj]; simp, h⟩

theorem hamCycle_vertices (graph : Graph) (N : Nat) (hN : 1 ≤ N)
    (hnext : ∀ i : Nat, i + 1 < N → Edge graph (i : Int) ((i : Int) + 1))
    (hclose : Edge graph ((N : Int) - 1) 0) : HamCycle graph N (vertices N) := by
  refine ⟨List.Perm.refl _, ?_, ?_, ?_⟩
  · obtain ⟨M, rfl⟩ : ∃ M, N = M + 1 := ⟨N - 1, by omega⟩
    simp only [vertices, Int.toNat_ofNat, upFrom]
    exact (readPath_cons_zero _ _ _).2 rfl
  · intro k hk0 hk
    obtain ⟨i, rfl⟩ : ∃ i : Nat, k = i := ⟨k.toNat, by omega⟩
    have h := (edgeAt_vertices graph N i (i + 1) (by omega) (by omega)).2
      (by push_cast; exact hnext i (by omega))
    simpa using h
  · have h := (edgeAt_vertices graph N (N - 1) 0 (by omega) (by omega)).2
      (by
        have h1 : (((N - 1 : Nat)) : Int) = (N : Int) - 1 := by omega
        rw [h1]; exact hclose)
    have h1 : (((N - 1 : Nat)) : Int) = (N : Int) - 1 := by omega
    rw [h1] at h
    exact h

theorem hamiltonian_vertices (graph : Graph) (n : Int) (hn : 1 ≤ n)
    (hsq : Square graph n.toNat)
    (hnext : ∀ i : Nat, (i : Int) + 1 < n → Edge graph (i : Int) ((i : Int) + 1))
    (hclose : Edge graph (n - 1) 0) (sleepy verbose : Bool) :
    hamiltonian graph n sleepy verbose = Res.ok (true, vertices n) := by
  obtain ⟨N, rfl⟩ : ∃ N : Nat, n = N := ⟨n.toNat, by omega⟩
  have hcyc : HamCycle graph N (vertices N) :=
    hamCycle_vertices graph N (by omega) (fun i hi => hnext i (by omega)) hclose
  rcases hamiltonian_cases graph N hn hsq sleepy verbose with ⟨path, hrun, hpath, hleast⟩ | ⟨_, hnone⟩
  · rcases hleast _ hcyc with h | h
    · rw [hrun, h]
    · exfalso
      obtain ⟨hlen, hnd, hrange⟩ := (perm_vertices_iff N path).1 hpath.1
      refine not_lex_upFrom path 0 hnd (fun x hx => (hrange x hx).1) ?_
      rw [hlen]
      simpa [vertices] using h
  · exact absurd hcyc (hnone _)

theorem hamiltonian_entries (graph : Graph) (n : Int) (hn : 2 ≤ n)
    (adj : Nat → Nat → Bool) (hg : HasEntries graph n.toNat adj)
    (hnext : ∀ i : Nat, i + 1 < n.toNat → adj i (i + 1) = true)
    (hclose : adj (n.toNat - 1) 0 = true) (sleepy verbose : Bool) :
    hamiltonian graph n sleepy verbose = Res.ok (true, vertices n) := by
  apply hamiltonian_vertices graph n (by omega) hg.1
  · intro i hi
    have h := hg.2 i (by omega) (i + 1) (by omega)
    rw [hnext i (by omega)] at h
    simpa [Edge] using h
  · have h := hg.2 (n.toNat - 1) (by omega) 0 (by omega)
    rw [hclose] at h
    have h1 : (((n.toNat - 1 : Nat)) : Int) = n - 1 := by omega
    rw [h1] at h
    exact h

theorem not_edge_of_all_false (graph : Graph) (hempty : ∀ row ∈ graph, ∀ e ∈ row, e = false)
    (a b : Int) : ¬ Edge graph a b := by
  unfold Edge readGraph
  intro h
  by_cases hab : 0 ≤ a ∧ 0 ≤ b
  · rw [if_pos hab] at h
    cases hrow : graph[a.toNat]? with
    | none => rw [hrow] at h; exact Res.noConfusion h
    | some row =>
      rw [hrow] at h
      cases he : row[b.toNat]? with
      | none => simp only [he] at h; exact Res.noConfusion h
      | some e =>
        simp only [he] at h
        have h1 : e = true := Res.ok.inj h
        have h2 : e = false :=
          hempty row (List.getElem?_mem hrow) e (List.getElem?_mem he)
        rw [h1] at h2
        exact Bool.noConfusion h2
  · rw [if_neg hab] at h
    exact Res.noConfusion h

theorem hamWalkFuel_sleepy :
    ∀ (fuel : Nat) (graph : Graph) (n : Int) (path : List Int) (pos : Int),
      hamWalkFuel fuel graph n path pos true = hamWalkFuel fuel graph n path pos false := by
  intro fuel
  induction fuel with
  | zero => intro graph n path pos; rfl
  | succ fuel ih =>
    intro graph n path pos
    simp only [hamWalkFuel]
    have hw : (fun p => hamWalkFuel fuel graph n p (pos + 1) true)
        = (fun p => hamWalkFuel fuel graph n p (pos + 1) false) :=
      funext fun p => ih graph n p (pos + 1)
    rw [hw]

theorem hamCycle_of_run (graph : Graph) (n : Int) (hn : 1 ≤ n)
    (hsq : Square graph n.toNat) (sleepy verbose : Bool) (path : List Int)
    (hrun : hamiltonian graph n sleepy verbose = Res.ok (true, path)) :
    HamCycle graph n path := by
  rcases hamiltonian_cases graph n hn hsq sleepy verbose with ⟨out, hout, hcyc, _⟩ | ⟨hfail, _⟩
  · rw [hout] at hrun
    have h : out = path := congrArg Prod.snd (Res.ok.inj hrun)
    rw [← h]
    exact hcyc
  · rw [hfail] at hrun
    exact Bool.noConfusion (congrArg Prod.fst (Res.ok.inj hrun))

/-! ## The solver: claims -/

/-- C1: soundness of the solver. For every `n ≥ 1` and every `n`-by-`n` matrix,
if `hamiltonian` returns true, then the final path is a permutation of the
vertices `0..n-1` with `path[0] = 0`, `graph[path[k]][path[k+1]]` is true for
every `0 ≤ k < n-1`, and `graph[path[n-1]][path[0]]` is true. -/
theorem hamiltonian_sound (graph : Graph) (n : Int) (hn : 1 ≤ n)
    (hsq : Square graph n.toNat) (sleepy verbose : Bool) (path : List Int)
    (hrun : hamiltonian graph n sleepy verbose = Res.ok (true, path)) :
    path.Perm (vertices n) ∧ readPath path 0 = Res.ok 0 ∧
      (∀ k : Int, 0 ≤ k → k < n - 1 → edgeAt graph path k (k + 1) = Res.ok true) ∧
      edgeAt graph path (n - 1) 0 = Res.ok true :=
  hamCycle_of_run graph n hn hsq sleepy verbose path hrun

/-- Witness of C1: on the graph with the edges {0,1}, {0,2}, {0,3}, {1,2},
{1,3} the solver backtracks out of `0,1,2` and `0,1,3` and returns the cycle
`0,2,1,3`. -/
theorem hamiltonian_sound_witness :
    [0, 2, 1, 3].Perm (vertices 4) ∧ readPath [0, 2, 1, 3] 0 = Res.ok 0 ∧
      (∀ k : Int, 0 ≤ k → k < 4 - 1 →
        edgeAt [[false, true, true, true], [true, false, true, true],
          [true, true, false, false], [true, true, false, false]] [0, 2, 1, 3] k (k + 1)
          = Res.ok true) ∧
      edgeAt [[false, true, true, true], [true, false, true, true],
        [true, true, false, false], [true, true, false, false]] [0, 2, 1, 3] (4 - 1) 0
        = Res.ok true :=
  hamiltonian_sound [[false, true, true, true], [true, false, true, true],
    [true, true, false, false], [true, true, false, false]] 4 (by decide) (by decide)
    false false [0, 2, 1, 3] (by decide)

/-- C2: completeness of the solver. For every `n ≥ 2` and every `n`-by-`n`
matrix, if a Hamiltonian cycle through vertex 0 exists then `hamiltonian`
returns true; and it returns false only when no such cycle exists. -/
theorem hamiltonian_completeness (graph : Graph) (n : Int) (hn : 2 ≤ n)
    (hsq : Square graph n.toNat) (sleepy verbose : Bool) :
    ((∃ p, HamCycle graph n p) →
      ∃ path, hamiltonian graph n sleepy verbose = Res.ok (true, path)) ∧
    (∀ path, hamiltonian graph n sleepy verbose = Res.ok (false, path) →
      ¬ ∃ p, HamCycle graph n p) := by
  rcases hamiltonian_cases graph n (by omega) hsq sleepy verbose with
    ⟨out, hout, _, _⟩ | ⟨_, hnone⟩
  · refine ⟨fun _ => ⟨out, hout⟩, ?_⟩
    intro path hrun
    rw [hout] at hrun
    exact Bool.noConfusion (congrArg Prod.fst (Res.ok.inj hrun))
  · refine ⟨?_, ?_⟩
    · rintro ⟨p, hp⟩
      exact absurd hp (hnone p)
    · rintro _ _ ⟨p, hp⟩
      exact hnone p hp

/-- Witness of C2: on the graph with the edges {0,1}, {0,2}, {0,3}, {1,2},
{1,3} the cycle `0,3,1,2` exists, and the solver returns true. -/
theorem hamiltonian_completeness_witness :
    HamCycle [[false, true, true, true], [true, false, true, true],
        [true, true, false, false], [true, true, false, false]] 4 [0, 3, 1, 2] ∧
      ∃ path, hamiltonian [[false, true, true, true], [true, false, true, true],
        [true, true, false, false], [true, true, false, false]] 4 false false
        = Res.ok (true, path) :=
  ⟨by decide,
    (hamiltonian_completeness [[false, true, true, true], [true, false, true, true],
      [true, true, false, false], [true, true, false, false]] 4 (by decide) (by decide)
      false false).1 ⟨[0, 3, 1, 2], by decide⟩⟩

/-- C3: for every `n ≥ 2`, on the graph that is exactly the simple cycle
`0-1-2-...-(n-1)-0`, `hamiltonian` returns true and the final path is exactly
`[0, 1, 2, ..., n-1]`. -/
theorem hamiltonian_cycle_graph (graph : Graph) (n : Int) (hn : 2 ≤ n)
    (hg : HasEntries graph n.toNat (cycleAdj n.toNat)) (sleepy verbose : Bool) :
    hamiltonian graph n sleepy verbose = Res.ok (true, vertices n) := by
  apply hamiltonian_entries graph n hn _ hg
  · intro i _
    simp [cycleAdj]
  · simp [cycleAdj]

/-- Witness of C3: the simple cycle on 5 vertices. -/
theorem hamiltonian_cycle_graph_witness :
    hamiltonian [[false, true, false, false, true], [true, false, true, false, false],
      [false, true, false, true, false], [false, false, true, false, true],
      [true, false, false, true, false]] 5 false false = Res.ok (true, [0, 1, 2, 3, 4]) :=
  hamiltonian_cycle_graph [[false, true, false, false, true],
    [true, false, true, false, false], [false, true, false, true, false],
    [false, false, true, false, true], [true, false, false, true, false]] 5
    (by decide) (by decide) false false

/-- C4: for every `n ≥ 2`, on the `n`-by-`n` matrix whose entries are all false,
`hamiltonian` returns false (and leaves the path `[0, -1, ..., -1]`). -/
theorem hamiltonian_no_edges (graph : Graph) (n : Int) (hn : 2 ≤ n)
    (hsq : Square graph n.toNat) (hempty : ∀ row ∈ graph, ∀ e ∈ row, e = false)
    (sleepy verbose : Bool) :
    hamiltonian graph n sleepy verbose
      = Res.ok (false, 0 :: List.replicate (n.toNat - 1) (-1)) := by
  rcases hamiltonian_cases graph n (by omega) hsq sleepy verbose with
    ⟨out, _, hcyc, _⟩ | ⟨hfail, _⟩
  · exfalso
    have h := hcyc.2.2.1 0 (le_refl _) (by omega)
    rw [edgeAt_ok_iff] at h
    obtain ⟨a, b, _, _, hab⟩ := h
    exact not_edge_of_all_false graph hempty a b hab
  · exact hfail

/-- Witness of C4: three vertices, no edges. -/
theorem hamiltonian_no_edges_witness :
    hamiltonian [[false, false, false], [false, false, false], [false, false, false]] 3
      false false = Res.ok (false, [0, -1, -1]) :=
  hamiltonian_no_edges [[false, false, false], [false, false, false], [false, false, false]] 3
    (by decide) (by decide) (by decide) false false

/-- C5: `isSafe` is exactly the conjunction of its two tests. When the reads
`path[pos-1]` and `graph[path[pos-1]][v]` are in bounds (which includes
`pos ≥ 1`), `isSafe(v, graph, path, pos)` returns true if and only if that
entry is true and `v` does not occur among `path[0..pos-1]`; it returns false
whenever `v` is among `path[0..pos-1]`, and false whenever the entry is false,
whether or not `v` is a duplicate. -/
theorem isSafe_iff (v : Int) (graph : Graph) (path : List Int) (pos last : Int) (e : Bool)
    (hlast : readPath path (pos - 1) = Res.ok last)
    (hentry : readGraph graph last v = Res.ok e) :
    (isSafe v graph path pos = Res.ok true ↔ e = true ∧ v ∉ path.take pos.toNat) ∧
      (v ∈ path.take pos.toNat → isSafe v graph path pos = Res.ok false) ∧
      (e = false → isSafe v graph path pos = Res.ok false) ∧
      (isSafe v graph path pos = Res.ok true ∨ isSafe v graph path pos = Res.ok false) := by
  rw [isSafe_eq v graph path pos last e hlast hentry]
  by_cases hmem : v ∈ path.take pos.toNat <;> cases e <;> simp [hmem]

/-- Witness of C5: on the triangle, with `0, 1` placed, candidate 2 is safe. -/
theorem isSafe_iff_witness :
    isSafe 2 [[false, true, true], [true, false, true], [true, true, false]] [0, 1, -1] 2
      = Res.ok true ↔ true = true ∧ (2 : Int) ∉ List.take (2 : Int).toNat [0, 1, -1] :=
  (isSafe_iff 2 [[false, true, true], [true, false, true], [true, true, false]] [0, 1, -1] 2
    1 true (by decide) (by decide)).1

/-- C9: the slow-mode flag does not alter the outcome. For every graph and
every `n`, `hamiltonian` and `hamWalk` run with `sleepy = true` and with
`sleepy = false` return the same flag and leave the same path. -/
theorem sleepy_same_outcome (graph : Graph) (n : Int) (verbose : Bool) :
    hamiltonian graph n true verbose = hamiltonian graph n false verbose ∧
      ∀ (path : List Int) (pos : Int),
        hamWalk graph n path pos true = hamWalk graph n path pos false := by
  have h : ∀ (path : List Int) (pos : Int),
      hamWalk graph n path pos true = hamWalk graph n path pos false :=
    fun path pos => hamWalkFuel_sleepy _ graph n path pos
  refine ⟨?_, h⟩
  unfold hamiltonian
  cases writePath (List.replicate n.toNat (-1)) 0 0 with
  | ok path => exact h path 1
  | fault e => rfl

/-- C10: for every `n ≥ 2`, on the complete graph on `n` vertices (every
off-diagonal entry true, diagonal false), `hamiltonian` returns true with final
path exactly `[0, 1, ..., n-1]`, whose cycle-closing entry
`graph[path[n-1]][path[0]]` is true. -/
theorem hamiltonian_complete_graph (graph : Graph) (n : Int) (hn : 2 ≤ n)
    (hg : HasEntries graph n.toNat completeAdj) (sleepy verbose : Bool) :
    hamiltonian graph n sleepy verbose = Res.ok (true, vertices n) ∧
      edgeAt graph (vertices n) (n - 1) 0 = Res.ok true := by
  have hrun : hamiltonian graph n sleepy verbose = Res.ok (true, vertices n) := by
    apply hamiltonian_entries graph n hn _ hg
    · intro i _
      simp [completeAdj]
    · simp only [completeAdj, decide_eq_true_eq]
      omega
  exact ⟨hrun, (hamCycle_of_run graph n (by omega) hg.1 sleepy verbose _ hrun).2.2.2⟩

/-- Witness of C10: the scenario of the specification, `n = 4`, path
`[0, 1, 2, 3]`, closing edge `(3, 0)`. -/
theorem hamiltonian_complete_graph_witness :
    hamiltonian [[false, true, true, true], [true, false, true, true],
        [true, true, false, true], [true, true, true, false]] 4 false false
        = Res.ok (true, [0, 1, 2, 3]) ∧
      edgeAt [[false, true, true, true], [true, false, true, true],
        [true, true, false, true], [true, true, true, false]] [0, 1, 2, 3] 3 0
        = Res.ok true :=
  hamiltonian_complete_graph [[false, true, true, true], [true, false, true, true],
    [true, true, false, true], [true, true, true, false]] 4 (by decide) (by decide)
    false false

/-! ## makeGraph -/

theorem readGraph_natCast (g : Graph) (c d : Nat) :
    readGraph g (c : Int) (d : Int) =
      match g[c]? with
      | some row =>
        match row[d]? with
        | some x => Res.ok x
        | none => Res.fault Fault.outOfBounds
      | none => Res.fault Fault.outOfBounds := by
  unfold readGraph
  rw [if_pos ⟨by omega, by omega⟩]
  simp only [Int.toNat_ofNat]

theorem writeGraph_spec (g : Graph) (N : Nat) (hsq : Square g N) (a b : Nat) (ha : a < N)
    (hb : b < N) (x : Bool) :
    ∃ g', writeGraph g (a : Int) (b : Int) x = Res.ok g' ∧ Square g' N ∧
      ∀ c d : Nat, readGraph g' (c : Int) (d : Int)
        = if c = a ∧ d = b then Res.ok x else readGraph g (c : Int) (d : Int) := by
  obtain ⟨hlen, hrow⟩ := hsq
  have ha2 : a < g.length := by omega
  have hb2 : b < (g[a]).length := by rw [hrow _ (List.getElem_mem ha2)]; exact hb
  refine ⟨g.set a ((g[a]).set b x), ?_, ?_, ?_⟩
  · unfold writeGraph
    rw [if_pos ⟨by omega, by omega⟩]
    simp only [Int.toNat_ofNat, List.getElem?_eq_getElem ha2]
    rw [if_pos hb2]
  · refine ⟨by rw [List.length_set]; exact hlen, ?_⟩
    intro row hmem
    rcases List.mem_or_eq_of_mem_set hmem with h | h
    · exact hrow row h
    · rw [h, List.length_set]
      exact hrow _ (List.getElem_mem ha2)
  · intro c d
    rw [readGraph_natCast, readGraph_natCast]
    by_cases hc : c = a
    · subst hc
      rw [List.getElem?_set_self ha2, List.getElem?_eq_getElem ha2]
      by_cases hd : d = b
      · subst hd
        simp [List.getElem?_set_self hb2]
      · have hd2 : ¬ b = d := fun h => hd h.symm
        simp [List.getElem?_set_ne hd2, hd]
    · have hc2 : ¬ a = c := fun h => hc h.symm
      rw [List.getElem?_set_ne hc2]
      simp [hc]

theorem makeGraphRow_spec (rate : Int) (rand : Nat → Nat) (N i : Nat) :
    ∀ (k j : Nat) (g : Graph) (s : Nat), j + k = N → i < j → Square g N →
      ∃ g', makeGraphRow rate rand (i : Int) k (j : Int) g s = Res.ok (g', s + k) ∧
        Square g' N ∧
        ∀ c d : Nat, c < N → d < N → readGraph g' (c : Int) (d : Int)
          = if (c = i ∧ j ≤ d) ∨ (d = i ∧ j ≤ c)
            then Res.ok (sampleEdge rate rand (s + (max c d - j)))
            else readGraph g (c : Int) (d : Int) := by
  intro k
  induction k with
  | zero =>
    intro j g s hj hij hsq
    refine ⟨g, rfl, hsq, ?_⟩
    intro c d hc hd
    rw [if_neg (by omega)]
  | succ k ih =>
    intro j g s hj hij hsq
    obtain ⟨g1, hw1, hsq1, hr1⟩ :=
      writeGraph_spec g N hsq i j (by omega) (by omega) (sampleEdge rate rand s)
    obtain ⟨g2, hw2, hsq2, hr2⟩ :=
      writeGraph_spec g1 N hsq1 j i (by omega) (by omega) (sampleEdge rate rand s)
    obtain ⟨g3, hrun, hsq3, hr3⟩ := ih (j + 1) g2 (s + 1) (by omega) (by omega) hsq2
    have hread : readGraph g1 (i : Int) (j : Int) = Res.ok (sampleEdge rate rand s) := by
      rw [hr1 i j, if_pos ⟨rfl, rfl⟩]
    have hjcast : ((j : Int) + 1) = ((j + 1 : Nat) : Int) := by push_cast; rfl
    refine ⟨g3, ?_, hsq3, ?_⟩
    · rw [makeGraphRow]
      change (writeGraph g (i : Int) (j : Int) (sampleEdge rate rand s)).bind _ = _
      rw [hw1, Res.bind_ok, hread, Res.bind_ok, hw2, Res.bind_ok, hjcast, hrun]
      congr 2
      omega
    · intro c d hc hd
      rw [hr3 c d hc hd, hr2 c d, hr1 c d]
      by_cases h1 : (c = i ∧ j + 1 ≤ d) ∨ (d = i ∧ j + 1 ≤ c)
      · rw [if_pos h1, if_pos (by omega)]
        congr 2
        omega
      · rw [if_neg h1]
        by_cases h2 : c = j ∧ d = i
        · rw [if_pos h2, if_pos (by omega)]
          congr 2
          omega
        · rw [if_neg h2]
          by_cases h3 : c = i ∧ d = j
          · rw [if_pos h3, if_pos (by omega)]
            congr 2
            omega
          · rw [if_neg h3, if_neg (by omega)]

theorem makeGraphRows_spec (rate : Int) (rand : Nat → Nat) (N s0 : Nat) :
    ∀ (k i : Nat) (g : Graph), i + k = N → Square g N →
      ∃ g', makeGraphRows rate rand (N : Int) k (i : Int) g (s0 + rowStart N i)
          = Res.ok (g', s0 + rowStart N N) ∧
        Square g' N ∧
        ∀ c d : Nat, c < N → d < N → readGraph g' (c : Int) (d : Int)
          = if i ≤ min c d
            then (if c = d then Res.ok false
              else Res.ok (sampleEdge rate rand (s0 + pairIndex N (min c d) (max c d))))
            else readGraph g (c : Int) (d : Int) := by
  intro k
  induction k with
  | zero =>
    intro i g hi hsq
    have hiN : i = N := by omega
    subst hiN
    refine ⟨g, rfl, hsq, ?_⟩
    intro c d hc hd
    rw [if_neg (by omega)]
  | succ k ih =>
    intro i g hi hsq
    obtain ⟨g1, hw1, hsq1, hr1⟩ := writeGraph_spec g N hsq i i (by omega) (by omega) false
    obtain ⟨g2, hrow, hsq2, hr2⟩ := makeGraphRow_spec rate rand N i (N - (i + 1)) (i + 1) g1
      (s0 + rowStart N i) (by omega) (by omega) hsq1
    obtain ⟨g3, hrun, hsq3, hr3⟩ := ih (i + 1) g2 (by omega) hsq2
    have hicast : ((i : Int) + 1) = ((i + 1 : Nat) : Int) := by push_cast; rfl
    have hcount : ((N : Int) - ((i + 1 : Nat) : Int)).toNat = N - (i + 1) := by omega
    have hstart : s0 + rowStart N i + (N - (i + 1)) = s0 + rowStart N (i + 1) := by
      simp only [rowStart]
      omega
    refine ⟨g3, ?_, hsq3, ?_⟩
    · rw [makeGraphRows, hw1, Res.bind_ok, hicast, hcount, hrow, Res.bind_ok]
      simp only []
      rw [hstart]
      exact hrun
    · intro c d hc hd
      rw [hr3 c d hc hd, hr2 c d hc hd, hr1 c d]
      by_cases h1 : i + 1 ≤ min c d
      · rw [if_pos h1, if_pos (show i ≤ min c d by omega)]
      · rw [if_neg h1]
        by_cases h2 : (c = i ∧ i + 1 ≤ d) ∨ (d = i ∧ i + 1 ≤ c)
        · have hmin : min c d = i := by omega
          rw [if_pos h2, if_pos (show i ≤ min c d by omega), if_neg (show ¬ c = d by omega),
            hmin]
          congr 2
          unfold pairIndex
          omega
        · rw [if_neg h2]
          by_cases h3 : c = i ∧ d = i
          · rw [if_pos h3, if_pos (show i ≤ min c d by omega), if_pos (show c = d by omega)]
          · rw [if_neg h3, if_neg (show ¬ i ≤ min c d by omega)]

theorem makeGraph_spec (graph : Graph) (n rate : Int) (rand : Nat → Nat) (s : Nat)
    (hsq : Square graph n.toNat) :
    ∃ g', makeGraph graph n rate rand s = Res.ok (g', s + rowStart n.toNat n.toNat) ∧
      Square g' n.toNat ∧
      ∀ c d : Nat, c < n.toNat → d < n.toNat → readGraph g' (c : Int) (d : Int)
        = if c = d then Res.ok false
          else Res.ok (sampleEdge rate rand (s + pairIndex n.toNat (min c d) (max c d))) := by
  by_cases hn : 0 ≤ n
  · obtain ⟨N, rfl⟩ : ∃ N : Nat, n = N := ⟨n.toNat, by omega⟩
    simp only [Int.toNat_ofNat] at hsq ⊢
    obtain ⟨g', hrun, hsq', hr⟩ := makeGraphRows_spec rate rand N s N 0 graph (by omega) hsq
    refine ⟨g', ?_, hsq', ?_⟩
    · unfold makeGraph
      simpa [rowStart] using hrun
    · intro c d hc hd
      rw [hr c d hc hd, if_pos (by omega)]
  · have h0 : n.toNat = 0 := by omega
    refine ⟨graph, ?_, hsq, ?_⟩
    · unfold makeGraph
      rw [h0]
      rfl
    · intro c d hc
      omega

theorem makeGraph_entries (graph : Graph) (n rate : Int) (rand : Nat → Nat) (s : Nat)
    (hsq : Square graph n.toNat) :
    ∃ g', makeGraph graph n rate rand s = Res.ok (g', s + rowStart n.toNat n.toNat) ∧
      Square g' n.toNat ∧
      ∀ i j : Int, 0 ≤ i → i < n → 0 ≤ j → j < n → readGraph g' i j
        = if i = j then Res.ok false
          else Res.ok (sampleEdge rate rand
            (s + pairIndex n.toNat (min i j).toNat (max i j).toNat)) := by
  obtain ⟨g', hrun, hsq', hr⟩ := makeGraph_spec graph n rate rand s hsq
  refine ⟨g', hrun, hsq', ?_⟩
  intro i j hi0 hin hj0 hjn
  obtain ⟨c, rfl⟩ : ∃ c : Nat, i = c := ⟨i.toNat, by omega⟩
  obtain ⟨d, rfl⟩ : ∃ d : Nat, j = d := ⟨j.toNat, by omega⟩
  rw [hr c d (by omega) (by omega)]
  have h1 : (min (c : Int) (d : Int)).toNat = min c d := by omega
  have h2 : (max (c : Int) (d : Int)).toNat = max c d := by omega
  rw [h1, h2]
  by_cases hcd : c = d
  · rw [if_pos hcd, if_pos (by omega)]
  · rw [if_neg hcd, if_neg (by omega)]

theorem sampleEdge_of_lt (rate : Int) (rand : Nat → Nat) (s : Nat) (h : rate < 0) :
    sampleEdge rate rand s = false := by
  unfold sampleEdge
  rw [decide_eq_false_iff_not]
  omega

theorem sampleEdge_of_ge (rate : Int) (rand : Nat → Nat) (s : Nat) (h : 100 ≤ rate) :
    sampleEdge rate rand s = true := by
  unfold sampleEdge
  rw [decide_eq_true_iff]
  omega

theorem sampleEdge_zero (rand : Nat → Nat) (s : Nat) :
    sampleEdge 0 rand s = decide (rand s % 100 = 0) := by
  unfold sampleEdge
  rw [decide_eq_decide]
  omega

/-! ## makeGraph: claims -/

/-- C6, as stated, fails: with `rate = 0` a pair whose sample is 0 is connected,
because the comparison is `sample <= rate`. On two vertices, with a random
stream of zeros, `makeGraph(graph, 2, 0)` sets `graph[0][1]`. -/
theorem makeGraph_rate_zero_edge :
    makeGraph [[false, false], [false, false]] 2 0 (fun _ => 0) 0
        = Res.ok ([[false, true], [true, false]], 1) ∧
      readGraph [[false, true], [true, false]] 0 1 = Res.ok true := by
  decide

/-- C6, amended: for every `n` (in particular `n ≥ 1`), every `n`-by-`n` matrix and every random
stream, `makeGraph(graph, n, rate)` returns, and with `rate < 0` every
off-diagonal entry of the result is false; with `rate = 0` an off-diagonal entry
is true exactly when the sample drawn for its pair is 0. -/
theorem makeGraph_rate_below (graph : Graph) (n rate : Int) (rand : Nat → Nat) (s : Nat)
    (hsq : Square graph n.toNat) :
    ∃ g' s', makeGraph graph n rate rand s = Res.ok (g', s') ∧
      (rate < 0 → ∀ i j : Int, 0 ≤ i → i < n → 0 ≤ j → j < n → i ≠ j →
        readGraph g' i j = Res.ok false) ∧
      (rate = 0 → ∀ i j : Int, 0 ≤ i → i < n → 0 ≤ j → j < n → i ≠ j →
        readGraph g' i j = Res.ok (decide
          (rand (s + pairIndex n.toNat (min i j).toNat (max i j).toNat) % 100 = 0))) := by
  obtain ⟨g', hrun, _, hr⟩ := makeGraph_entries graph n rate rand s hsq
  refine ⟨g', _, hrun, ?_, ?_⟩
  · intro hrate i j hi0 hin hj0 hjn hij
    rw [hr i j hi0 hin hj0 hjn, if_neg hij, sampleEdge_of_lt rate rand _ hrate]
  · intro hrate i j hi0 hin hj0 hjn hij
    rw [hr i j hi0 hin hj0 hjn, if_neg hij, hrate, sampleEdge_zero]

/-- Witness of C6 amended: three vertices, rate `-1`, a random stream of zeros,
a matrix that was all true before the call. -/
theorem makeGraph_rate_below_witness :
    ∃ g' s', makeGraph [[true, true, true], [true, true, true], [true, true, true]] 3 (-1)
        (fun _ => 0) 0 = Res.ok (g', s') ∧
      ((-1 : Int) < 0 → ∀ i j : Int, 0 ≤ i → i < 3 → 0 ≤ j → j < 3 → i ≠ j →
        readGraph g' i j = Res.ok false) ∧
      ((-1 : Int) = 0 → ∀ i j : Int, 0 ≤ i → i < 3 → 0 ≤ j → j < 3 → i ≠ j →
        readGraph g' i j = Res.ok (decide
          ((fun _ => 0) (0 + pairIndex (3 : Int).toNat (min i j).toNat (max i j).toNat) % 100
            = 0))) :=
  makeGraph_rate_below [[true, true, true], [true, true, true], [true, true, true]] 3 (-1)
    (fun _ => 0) 0 (by decide)

/-- C7: for every `n` (in particular `n ≥ 1`), every `n`-by-`n` matrix and every random stream,
`makeGraph(graph, n, rate)` with `rate ≥ 100` returns a matrix in which every
off-diagonal entry is true and every diagonal entry is false. -/
theorem makeGraph_rate_full (graph : Graph) (n rate : Int) (rand : Nat → Nat) (s : Nat)
    (hsq : Square graph n.toNat) (hrate : 100 ≤ rate) :
    ∃ g' s', makeGraph graph n rate rand s = Res.ok (g', s') ∧
      (∀ i j : Int, 0 ≤ i → i < n → 0 ≤ j → j < n → i ≠ j →
        readGraph g' i j = Res.ok true) ∧
      (∀ i : Int, 0 ≤ i → i < n → readGraph g' i i = Res.ok false) := by
  obtain ⟨g', hrun, _, hr⟩ := makeGraph_entries graph n rate rand s hsq
  refine ⟨g', _, hrun, ?_, ?_⟩
  · intro i j hi0 hin hj0 hjn hij
    rw [hr i j hi0 hin hj0 hjn, if_neg hij, sampleEdge_of_ge rate rand _ hrate]
  · intro i hi0 hin
    rw [hr i i hi0 hin hi0 hin, if_pos rfl]

/-- Witness of C7: three vertices, rate 100, a random stream of 99s, a matrix
that was all false before the call. -/
theorem makeGraph_rate_full_witness :
    ∃ g' s', makeGraph [[false, false, false], [false, false, false], [false, false, false]]
        3 100 (fun _ => 99) 0 = Res.ok (g', s') ∧
      (∀ i j : Int, 0 ≤ i → i < 3 → 0 ≤ j → j < 3 → i ≠ j →
        readGraph g' i j = Res.ok true) ∧
      (∀ i : Int, 0 ≤ i → i < 3 → readGraph g' i i = Res.ok false) :=
  makeGraph_rate_full [[false, false, false], [false, false, false], [false, false, false]]
    3 100 (fun _ => 99) 0 (by decide) (by decide)

/-- C8: for every `n` (in particular `n ≥ 1`), every `n`-by-`n` matrix, every rate and every random
stream, `makeGraph` returns a matrix that is symmetric (`graph[i][j]` equals
`graph[j][i]` for all `i, j` in `[0, n)`) and has an all-false diagonal,
whatever the matrix contained before the call. -/
theorem makeGraph_symmetric (graph : Graph) (n rate : Int) (rand : Nat → Nat) (s : Nat)
    (hsq : Square graph n.toNat) :
    ∃ g' s', makeGraph graph n rate rand s = Res.ok (g', s') ∧
      (∀ i j : Int, 0 ≤ i → i < n → 0 ≤ j → j < n →
        ∃ e, readGraph g' i j = Res.ok e ∧ readGraph g' j i = Res.ok e) ∧
      (∀ i : Int, 0 ≤ i → i < n → readGraph g' i i = Res.ok false) := by
  obtain ⟨g', hrun, _, hr⟩ := makeGraph_entries graph n rate rand s hsq
  refine ⟨g', _, hrun, ?_, ?_⟩
  · intro i j hi0 hin hj0 hjn
    rw [hr i j hi0 hin hj0 hjn, hr j i hj0 hjn hi0 hin]
    by_cases hij : i = j
    · exact ⟨false, by rw [if_pos hij], by rw [if_pos hij.symm]⟩
    · have hji : ¬ j = i := fun h => hij h.symm
      rw [if_neg hij, if_neg hji, min_comm j i, max_comm j i]
      exact ⟨_, rfl, rfl⟩
  · intro i hi0 hin
    rw [hr i i hi0 hin hi0 hin, if_pos rfl]

/-- Witness of C8: three vertices, rate 15, a random stream `0, 37, 74, ...`, a
matrix that was neither symmetric nor free of loops before the call. -/
theorem makeGraph_symmetric_witness :
    ∃ g' s', makeGraph [[true, true, false], [false, true, true], [false, false, true]]
        3 15 (fun k => 37 * k) 0 = Res.ok (g', s') ∧
      (∀ i j : Int, 0 ≤ i → i < 3 → 0 ≤ j → j < 3 →
        ∃ e, readGraph g' i j = Res.ok e ∧ readGraph g' j i = Res.ok e) ∧
      (∀ i : Int, 0 ≤ i → i < 3 → readGraph g' i i = Res.ok false) :=
  makeGraph_symmetric [[true, true, false], [false, true, true], [false, false, true]]
    3 15 (fun k => 37 * k) 0 (by decide)

/-! ## The fuel of hamWalk is never exhausted -/

theorem bind_ne_outOfFuel {α β : Type} (r : Res α) (f : α → Res β)
    (hr : r ≠ Res.fault Fault.outOfFuel)
    (hf : ∀ a, r = Res.ok a → f a ≠ Res.fault Fault.outOfFuel) :
    r.bind f ≠ Res.fault Fault.outOfFuel := by
  cases r with
  | ok a => exact hf a rfl
  | fault e =>
    intro h
    apply hr
    rw [Res.bind_fault] at h
    rw [Res.fault.inj h]

theorem fault_ne_outOfFuel {α β : Type} (r : Res α) (e : Fault) (hr : r = Res.fault e)
    (hne : r ≠ Res.fault Fault.outOfFuel) :
    (Res.fault e : Res β) ≠ Res.fault Fault.outOfFuel := by
  intro h
  apply hne
  rw [hr, Res.fault.inj h]

theorem readPath_ne_outOfFuel (path : List Int) (i : Int) :
    readPath path i ≠ Res.fault Fault.outOfFuel := by
  unfold readPath
  split
  · split <;> simp
  · simp

theorem readGraph_ne_outOfFuel (graph : Graph) (a b : Int) :
    readGraph graph a b ≠ Res.fault Fault.outOfFuel := by
  unfold readGraph
  split
  · split
    · split <;> simp
    · simp
  · simp

theorem writePath_ok (path : List Int) (i x : Int) :
    writePath path i x ≠ Res.fault Fault.outOfFuel ∧
      ∀ out, writePath path i x = Res.ok out →
        out.length = path.length ∧ 0 ≤ i ∧ i.toNat < path.length := by
  unfold writePath
  split
  · rename_i h
    refine ⟨by simp, ?_⟩
    intro out hout
    rw [← Res.ok.inj hout, List.length_set]
    exact ⟨rfl, h⟩
  · refine ⟨by simp, ?_⟩
    intro out hout
    exact Res.noConfusion hout

theorem isSafeLoop_ne_outOfFuel (v : Int) (path : List Int) :
    ∀ (k : Nat) (i : Int), isSafeLoop v path k i ≠ Res.fault Fault.outOfFuel := by
  intro k
  induction k with
  | zero => intro i; simp [isSafeLoop]
  | succ k ih =>
    intro i
    rw [isSafeLoop]
    apply bind_ne_outOfFuel _ _ (readPath_ne_outOfFuel _ _)
    intro x _
    split
    · simp
    · exact ih _

theorem isSafe_ne_outOfFuel (v : Int) (graph : Graph) (path : List Int) (pos : Int) :
    isSafe v graph path pos ≠ Res.fault Fault.outOfFuel := by
  unfold isSafe
  apply bind_ne_outOfFuel _ _ (readPath_ne_outOfFuel _ _)
  intro last _
  apply bind_ne_outOfFuel _ _ (readGraph_ne_outOfFuel _ _ _)
  intro e _
  split
  · simp
  · exact isSafeLoop_ne_outOfFuel _ _ _ _

theorem hamLoop_total (walk : List Int → Res (Bool × List Int)) (graph : Graph) (pos : Int)
    (L : Nat)
    (hwalk : ∀ p, p.length = L → 0 ≤ pos → pos.toNat < L →
      walk p ≠ Res.fault Fault.outOfFuel ∧ ∀ r, walk p = Res.ok r → r.2.length = L) :
    ∀ (k : Nat) (v : Int) (path : List Int), path.length = L →
      hamLoop walk graph pos k v path ≠ Res.fault Fault.outOfFuel ∧
        ∀ r, hamLoop walk graph pos k v path = Res.ok r → r.2.length = L := by
  intro k
  induction k with
  | zero =>
    intro v path hlen
    refine ⟨by simp [hamLoop], ?_⟩
    intro r hr
    rw [hamLoop] at hr
    rw [← Res.ok.inj hr]
    exact hlen
  | succ k ih =>
    intro v path hlen
    rw [hamLoop]
    cases hsafe : isSafe v graph path pos with
    | fault e =>
      rw [Res.bind_fault]
      refine ⟨?_, fun r hr => Res.noConfusion hr⟩
      exact fault_ne_outOfFuel _ e hsafe (isSafe_ne_outOfFuel _ _ _ _)
    | ok safe =>
      rw [Res.bind_ok]
      cases safe with
      | false =>
        simp only [Bool.false_eq_true, if_false]
        exact ih (v + 1) path hlen
      | true =>
        simp only [if_true]
        cases hw : writePath path pos v with
        | fault e =>
          rw [Res.bind_fault]
          refine ⟨?_, fun r hr => Res.noConfusion hr⟩
          exact fault_ne_outOfFuel _ e hw (writePath_ok _ _ _).1
        | ok path1 =>
          rw [Res.bind_ok]
          obtain ⟨hlen1, hpos0, hposlt⟩ := (writePath_ok path pos v).2 path1 hw
          obtain ⟨hne, hwlen⟩ := hwalk path1 (by omega) hpos0 (by omega)
          cases hr1 : walk path1 with
          | fault e =>
            rw [Res.bind_fault]
            refine ⟨?_, fun r hr => Res.noConfusion hr⟩
            exact fault_ne_outOfFuel _ e hr1 hne
          | ok r1 =>
            rw [Res.bind_ok]
            have hr1len : r1.2.length = L := hwlen r1 hr1
            by_cases hflag : r1.1 = true
            · rw [if_pos hflag]
              refine ⟨by simp, ?_⟩
              intro r hr
              rw [← Res.ok.inj hr]
              exact hr1len
            · rw [if_neg hflag]
              cases hw2 : writePath r1.2 pos (-1) with
              | fault e =>
                rw [Res.bind_fault]
                refine ⟨?_, fun r hr => Res.noConfusion hr⟩
                exact fault_ne_outOfFuel _ e hw2 (writePath_ok _ _ _).1
              | ok path2 =>
                rw [Res.bind_ok]
                have hlen2 := ((writePath_ok r1.2 pos (-1)).2 path2 hw2).1
                exact ih (v + 1) path2 (by omega)

theorem hamWalkFuel_total (graph : Graph) (n : Int) (sleepy : Bool) :
    ∀ (fuel : Nat) (path : List Int) (pos : Int), hamFuel n path pos ≤ fuel →
      hamWalkFuel fuel graph n path pos sleepy ≠ Res.fault Fault.outOfFuel ∧
        ∀ r, hamWalkFuel fuel graph n path pos sleepy = Res.ok r →
          r.2.length = path.length := by
  intro fuel
  induction fuel with
  | zero =>
    intro path pos h
    unfold hamFuel at h
    omega
  | succ fuel ih =>
    intro path pos hfuel
    simp only [hamWalkFuel]
    by_cases hpos : pos = n
    · rw [if_pos hpos]
      constructor
      · apply bind_ne_outOfFuel _ _ (readPath_ne_outOfFuel _ _)
        intro last _
        apply bind_ne_outOfFuel _ _ (readPath_ne_outOfFuel _ _)
        intro first _
        apply bind_ne_outOfFuel _ _ (readGraph_ne_outOfFuel _ _ _)
        intro e _
        simp
      · intro r hr
        cases h1 : readPath path (pos - 1) with
        | fault e => rw [h1, Res.bind_fault] at hr; exact Res.noConfusion hr
        | ok last =>
          rw [h1, Res.bind_ok] at hr
          cases h2 : readPath path 0 with
          | fault e => rw [h2, Res.bind_fault] at hr; exact Res.noConfusion hr
          | ok first =>
            rw [h2, Res.bind_ok] at hr
            cases h3 : readGraph graph last first with
            | fault e => rw [h3, Res.bind_fault] at hr; exact Res.noConfusion hr
            | ok e =>
              rw [h3, Res.bind_ok] at hr
              rw [← Res.ok.inj hr]
    · rw [if_neg hpos]
      apply hamLoop_total _ graph pos path.length _ _ _ path rfl
      intro p hp hpos0 hposlt
      have hfuel2 : hamFuel n p (pos + 1) ≤ fuel := by
        unfold hamFuel at hfuel ⊢
        rw [hp]
        omega
      have h := ih p (pos + 1) hfuel2
      rw [hp] at h
      exact h

/-! ## Further properties of the solver -/

theorem readGraph_ok_bounds (graph : Graph) (N : Nat) (hsq : Square graph N) (a b : Int)
    (e : Bool) (h : readGraph graph a b = Res.ok e) :
    0 ≤ a ∧ a < N ∧ 0 ≤ b ∧ b < N := by
  unfold readGraph at h
  by_cases hab : 0 ≤ a ∧ 0 ≤ b
  · rw [if_pos hab] at h
    cases hrow : graph[a.toNat]? with
    | none => rw [hrow] at h; exact Res.noConfusion h
    | some row =>
      rw [hrow] at h
      cases he : row[b.toNat]? with
      | none => simp only [he] at h; exact Res.noConfusion h
      | some x =>
        obtain ⟨ha, _⟩ := List.getElem?_eq_some.1 hrow
        obtain ⟨hb, _⟩ := List.getElem?_eq_some.1 he
        have hlen := hsq.2 row (List.getElem?_mem hrow)
        have hrows := hsq.1
        omega
  · rw [if_neg hab] at h
    exact Res.noConfusion h

theorem edge_of_entries (graph : Graph) (N : Nat) (adj : Nat → Nat → Bool)
    (hg : HasEntries graph N adj) (a b : Int) (h : Edge graph a b) :
    0 ≤ a ∧ a < N ∧ 0 ≤ b ∧ b < N ∧ adj a.toNat b.toNat = true := by
  obtain ⟨ha0, haN, hb0, hbN⟩ := readGraph_ok_bounds graph N hg.1 a b true h
  refine ⟨ha0, haN, hb0, hbN, ?_⟩
  have h1 := hg.2 a.toNat (by omega) b.toNat (by omega)
  have ha : ((a.toNat : Nat) : Int) = a := by omega
  have hb : ((b.toNat : Nat) : Int) = b := by omega
  rw [ha, hb] at h1
  unfold Edge at h
  rw [h] at h1
  exact (Res.ok.inj h1).symm

theorem lastOf_mem (t : List Int) : ∀ a : Int, lastOf a t ∈ a :: t := by
  induction t with
  | nil => intro a; simp [lastOf]
  | cons b t ih =>
    intro a
    rw [lastOf]
    exact List.mem_cons_of_mem _ (ih b)

theorem no_hamCycle_open_path (graph : Graph) (N : Nat) (hN : 3 ≤ N)
    (hg : HasEntries graph N pathAdj) (p : List Int) : ¬ HamCycle graph N p := by
  intro hp
  obtain ⟨t, _, hlen, hnd, _, hchain, hclose⟩ := (hamCycle_iff graph N p).1 hp
  simp only [List.length_nil] at hlen
  cases t with
  | nil => simp at hlen; omega
  | cons x t =>
    cases t with
    | nil => simp at hlen; omega
    | cons y t =>
      have hx := edge_of_entries graph N pathAdj hg 0 x (List.chain_cons.1 hchain).1
      have hl := edge_of_entries graph N pathAdj hg _ 0 hclose
      simp only [lastOf] at hl
      have hx1 : x = 1 := by
        have h := hx.2.2.2.2
        simp only [pathAdj, decide_eq_true_eq] at h
        have h0 : (0 : Int).toNat = 0 := rfl
        rw [h0] at h
        omega
      have hl1 : lastOf y t = 1 := by
        have h := hl.2.2.2.2
        simp only [pathAdj, decide_eq_true_eq] at h
        have h0 : (0 : Int).toNat = 0 := rfl
        rw [h0] at h
        omega
      have hmem : (1 : Int) ∈ y :: t := hl1 ▸ lastOf_mem t y
      have hnd2 : ((0 : Int) :: x :: y :: t).Nodup := hnd
      rw [hx1] at hnd2
      exact (List.nodup_cons.1 (List.nodup_cons.1 hnd2).2).1 hmem

theorem hamiltonian_one (graph : Graph) (e : Bool) (he : readGraph graph 0 0 = Res.ok e)
    (sleepy verbose : Bool) : hamiltonian graph 1 sleepy verbose = Res.ok (e, [0]) := by
  have hw : writePath (List.replicate (1 : Int).toNat (-1)) 0 0 = Res.ok [0] := by decide
  have hf : hamFuel 1 [0] 1 = 1 := by decide
  have h0 : readPath [0] 0 = Res.ok 0 := by decide
  unfold hamiltonian hamWalk
  rw [hw, Res.bind_ok, hf]
  simp only [hamWalkFuel, if_true]
  have h1 : ((1 : Int) - 1) = 0 := by decide
  rw [h1, h0, Res.bind_ok, Res.bind_ok, he, Res.bind_ok]

/-- C11: for every `n ≥ 3`, on the open path graph with exactly the edges
`{i, i+1}` for `0 ≤ i < n-1` (no edge between `n-1` and 0), `hamiltonian`
returns false (and leaves the path `[0, -1, ..., -1]`). -/
theorem hamiltonian_open_path (graph : Graph) (n : Int) (hn : 3 ≤ n)
    (hg : HasEntries graph n.toNat pathAdj) (sleepy verbose : Bool) :
    hamiltonian graph n sleepy verbose
      = Res.ok (false, 0 :: List.replicate (n.toNat - 1) (-1)) := by
  rcases hamiltonian_cases graph n (by omega) hg.1 sleepy verbose with
    ⟨out, _, hcyc, _⟩ | ⟨hfail, _⟩
  · exfalso
    have hn2 : ((n.toNat : Nat) : Int) = n := by omega
    rw [← hn2] at hcyc
    exact no_hamCycle_open_path graph n.toNat (by omega) hg out hcyc
  · exact hfail

/-- Witness of C11: the scenario of the specification, `n = 3` with the edges
`(0,1)` and `(1,2)` only. -/
theorem hamiltonian_open_path_witness :
    hamiltonian [[false, true, false], [true, false, true], [false, true, false]] 3
      false false = Res.ok (false, [0, -1, -1]) :=
  hamiltonian_open_path [[false, true, false], [true, false, true], [false, true, false]] 3
    (by decide) (by decide) false false

/-- C12, as stated, fails: on the single-vertex graph that the generator
produces (its only entry `graph[0][0]` is false), `hamiltonian(graph, 1, ...)`
returns false, with path `[0]`: the base case tests the entry
`graph[path[0]][path[0]]`. -/
theorem single_vertex_returns_false :
    makeGraph [[true]] 1 15 (fun _ => 0) 0 = Res.ok ([[false]], 0) ∧
      hamiltonian [[false]] 1 false false = Res.ok (false, [0]) := by
  decide

/-- C12, amended: for `n = 1` the solver returns the entry `graph[0][0]`, with
path `[0]`. On the single-vertex graph produced by the generator that entry is
false and `hamiltonian(graph, 1, ...)` returns false; it returns true exactly
when `graph[0][0]` is true. -/
theorem hamiltonian_single_vertex (graph : Graph) (hsq : Square graph 1) (rate : Int)
    (rand : Nat → Nat) (s : Nat) (sleepy verbose : Bool) :
    (∃ e, readGraph graph 0 0 = Res.ok e ∧
      hamiltonian graph 1 sleepy verbose = Res.ok (e, [0])) ∧
    (∃ g', makeGraph graph 1 rate rand s = Res.ok (g', s) ∧
      readGraph g' 0 0 = Res.ok false ∧
      hamiltonian g' 1 sleepy verbose = Res.ok (false, [0])) := by
  constructor
  · obtain ⟨e, he⟩ := readGraph_square graph 1 hsq 0 0 (by decide) (by decide)
    exact ⟨e, he, hamiltonian_one graph e he sleepy verbose⟩
  · obtain ⟨g', hrun, _, hr⟩ := makeGraph_entries graph 1 rate rand s hsq
    have h0 : readGraph g' 0 0 = Res.ok false := by
      rw [hr 0 0 (by decide) (by decide) (by decide) (by decide), if_pos rfl]
    exact ⟨g', hrun, h0, hamiltonian_one g' false h0 sleepy verbose⟩

/-- Witness of C12 amended: a one-by-one matrix holding `true` before the
generator runs. -/
theorem hamiltonian_single_vertex_witness :
    (∃ e, readGraph [[true]] 0 0 = Res.ok e ∧
      hamiltonian [[true]] 1 false false = Res.ok (e, [0])) ∧
    (∃ g', makeGraph [[true]] 1 15 (fun _ => 0) 0 = Res.ok (g', 0) ∧
      readGraph g' 0 0 = Res.ok false ∧
      hamiltonian g' 1 false false = Res.ok (false, [0])) :=
  hamiltonian_single_vertex [[true]] (by decide) 15 (fun _ => 0) 0 false false

/-- C18: the first path found is the lexicographically least one. For every
`n ≥ 1` and every `n`-by-`n` matrix, if `hamiltonian` returns true then the final
path is a Hamiltonian cycle through vertex 0, and every Hamiltonian cycle
through vertex 0 is equal to it or lexicographically greater. -/
theorem hamiltonian_lex_least (graph : Graph) (n : Int) (hn : 1 ≤ n)
    (hsq : Square graph n.toNat) (sleepy verbose : Bool) (path : List Int)
    (hrun : hamiltonian graph n sleepy verbose = Res.ok (true, path)) :
    HamCycle graph n path ∧
      ∀ p, HamCycle graph n p → path = p ∨ List.Lex (· < ·) path p := by
  rcases hamiltonian_cases graph n hn hsq sleepy verbose with
    ⟨out, hout, hcyc, hleast⟩ | ⟨hfail, _⟩
  · rw [hout] at hrun
    have h : out = path := congrArg Prod.snd (Res.ok.inj hrun)
    rw [← h]
    exact ⟨hcyc, hleast⟩
  · rw [hfail] at hrun
    exact Bool.noConfusion (congrArg Prod.fst (Res.ok.inj hrun))

/-- Witness of C18: on the graph with the edges {0,1}, {0,2}, {0,3}, {1,2},
{1,3} the cycles through 0 are `0,2,1,3` and `0,3,1,2`; the solver returns the
first of them. -/
theorem hamiltonian_lex_least_witness :
    HamCycle [[false, true, true, true], [true, false, true, true],
        [true, true, false, false], [true, true, false, false]] 4 [0, 2, 1, 3] ∧
      ∀ p, HamCycle [[false, true, true, true], [true, false, true, true],
        [true, true, false, false], [true, true, false, false]] 4 p →
        [0, 2, 1, 3] = p ∨ List.Lex (· < ·) [0, 2, 1, 3] p :=
  hamiltonian_lex_least [[false, true, true, true], [true, false, true, true],
    [true, true, false, false], [true, true, false, false]] 4 (by decide) (by decide)
    false false [0, 2, 1, 3] (by decide)

/-! ## Undo on failure -/

theorem writePath_eq (path : List Int) (i x : Int) (out : List Int)
    (h : writePath path i x = Res.ok out) :
    out = path.set i.toNat x ∧ 0 ≤ i ∧ i.toNat < path.length := by
  unfold writePath at h
  by_cases hc : 0 ≤ i ∧ i.toNat < path.length
  · rw [if_pos hc] at h
    exact ⟨(Res.ok.inj h).symm, hc⟩
  · rw [if_neg hc] at h
    exact Res.noConfusion h

theorem writePath_of_lt (path : List Int) (i x : Int) (h0 : 0 ≤ i)
    (hlt : i.toNat < path.length) : writePath path i x = Res.ok (path.set i.toNat x) := by
  unfold writePath
  rw [if_pos ⟨h0, hlt⟩]

theorem set_eq_self (l : List Int) (i : Nat) (x : Int) (h : l[i]? = some x) :
    l.set i x = l := by
  apply List.ext_getElem?
  intro j
  rw [List.getElem?_set]
  by_cases hij : i = j
  · subst hij
    have hlt := (List.getElem?_eq_some.1 h).1
    rw [if_pos rfl, if_pos hlt, h]
  · rw [if_neg hij]

theorem hamLoop_restore (walk : List Int → Res (Bool × List Int)) (graph : Graph) (pos : Int)
    (hwalk : ∀ p out, (∀ x ∈ p.drop (pos + 1).toNat, x = -1) →
      walk p = Res.ok (false, out) → out = p) :
    ∀ (k : Nat) (v : Int) (path out : List Int), (∀ x ∈ path.drop pos.toNat, x = -1) →
      hamLoop walk graph pos k v path = Res.ok (false, out) → out = path := by
  intro k
  induction k with
  | zero =>
    intro v path out _ h
    rw [hamLoop] at h
    exact (congrArg Prod.snd (Res.ok.inj h)).symm
  | succ k ih =>
    intro v path out hfree h
    rw [hamLoop] at h
    cases hsafe : isSafe v graph path pos with
    | fault e => rw [hsafe, Res.bind_fault] at h; exact Res.noConfusion h
    | ok safe =>
      rw [hsafe, Res.bind_ok] at h
      cases safe with
      | false =>
        simp only [Bool.false_eq_true, if_false] at h
        exact ih (v + 1) path out hfree h
      | true =>
        simp only [if_true] at h
        cases hw : writePath path pos v with
        | fault e => rw [hw, Res.bind_fault] at h; exact Res.noConfusion h
        | ok path1 =>
          rw [hw, Res.bind_ok] at h
          obtain ⟨hp1, hpos0, hposlt⟩ := writePath_eq path pos v path1 hw
          cases hr : walk path1 with
          | fault e => rw [hr, Res.bind_fault] at h; exact Res.noConfusion h
          | ok r =>
            rw [hr, Res.bind_ok] at h
            obtain ⟨b, out1⟩ := r
            cases b with
            | true =>
              simp only [if_true] at h
              exact Bool.noConfusion (congrArg Prod.fst (Res.ok.inj h))
            | false =>
              simp only [Bool.false_eq_true, if_false] at h
              have hnext : (pos + 1).toNat = pos.toNat + 1 := by omega
              have hfree1 : ∀ x ∈ path1.drop (pos + 1).toNat, x = -1 := by
                intro x hx
                rw [hnext, hp1, List.drop_set_of_lt _ _ (Nat.lt_succ_self _)] at hx
                apply hfree x
                rw [← List.drop_drop 1 pos.toNat path] at hx
                exact List.mem_of_mem_drop hx
              have hout1 : out1 = path1 := hwalk path1 out1 hfree1 hr
              have hslot : path[pos.toNat]? = some (-1) := by
                rw [List.getElem?_eq_getElem hposlt]
                congr 1
                apply hfree
                rw [List.drop_eq_getElem_cons hposlt]
                exact List.mem_cons_self _ _
              have hback : writePath out1 pos (-1) = Res.ok path := by
                rw [hout1, hp1, writePath_of_lt _ pos (-1) hpos0
                  (by rw [List.length_set]; exact hposlt), List.set_set,
                  set_eq_self path pos.toNat (-1) hslot]
              rw [hback, Res.bind_ok] at h
              exact ih (v + 1) path out hfree h

theorem hamWalkFuel_restore (graph : Graph) (n : Int) (sleepy : Bool) :
    ∀ (fuel : Nat) (path : List Int) (pos : Int) (out : List Int),
      (∀ x ∈ path.drop pos.toNat, x = -1) →
      hamWalkFuel fuel graph n path pos sleepy = Res.ok (false, out) → out = path := by
  intro fuel
  induction fuel with
  | zero => intro path pos out _ h; exact Res.noConfusion h
  | succ fuel ih =>
    intro path pos out hfree h
    simp only [hamWalkFuel] at h
    by_cases hpos : pos = n
    · rw [if_pos hpos] at h
      cases h1 : readPath path (pos - 1) with
      | fault e => rw [h1, Res.bind_fault] at h; exact Res.noConfusion h
      | ok last =>
        rw [h1, Res.bind_ok] at h
        cases h2 : readPath path 0 with
        | fault e => rw [h2, Res.bind_fault] at h; exact Res.noConfusion h
        | ok first =>
          rw [h2, Res.bind_ok] at h
          cases h3 : readGraph graph last first with
          | fault e => rw [h3, Res.bind_fault] at h; exact Res.noConfusion h
          | ok e =>
            rw [h3, Res.bind_ok] at h
            exact (congrArg Prod.snd (Res.ok.inj h)).symm
    · rw [if_neg hpos] at h
      exact hamLoop_restore _ graph pos (fun p o hp ho => ih p (pos + 1) o hp ho)
        _ 1 path out hfree h

/-- C15: explicit undo on failure. For every `n`, graph and path whose slots at
indices `≥ pos` all hold `-1`, if `hamWalk(graph, n, path, pos, _)` returns false
then the path on return equals the path on entry; consequently, when
`hamiltonian` returns false its path is `[0, -1, ..., -1]`. -/
theorem hamWalk_undo (graph : Graph) (n : Int) (sleepy : Bool) :
    (∀ (path : List Int) (pos : Int) (out : List Int),
      (∀ x ∈ path.drop pos.toNat, x = -1) →
      hamWalk graph n path pos sleepy = Res.ok (false, out) → out = path) ∧
    (∀ (verbose : Bool) (out : List Int),
      hamiltonian graph n sleepy verbose = Res.ok (false, out) →
      out = 0 :: List.replicate (n.toNat - 1) (-1)) := by
  constructor
  · intro path pos out hfree h
    exact hamWalkFuel_restore graph n sleepy _ path pos out hfree h
  · intro verbose out h
    unfold hamiltonian at h
    cases hw : writePath (List.replicate n.toNat (-1)) 0 0 with
    | fault e => rw [hw, Res.bind_fault] at h; exact Res.noConfusion h
    | ok path0 =>
      rw [hw, Res.bind_ok] at h
      obtain ⟨hp0, _, hlt⟩ := writePath_eq _ 0 0 path0 hw
      simp only [List.length_replicate] at hlt
      obtain ⟨m, hm⟩ : ∃ m, n.toNat = m + 1 := ⟨n.toNat - 1, by
        have : (0 : Int).toNat = 0 := rfl
        omega⟩
      have hp1 : path0 = 0 :: List.replicate m (-1) := by
        rw [hp0, hm]
        rfl
      have hfree : ∀ x ∈ path0.drop (1 : Int).toNat, x = -1 := by
        intro x hx
        rw [hp1] at hx
        exact (List.mem_replicate.1 hx).2
      have hout := hamWalkFuel_restore graph n sleepy _ path0 1 out hfree h
      rw [hout, hp1, hm]
      rfl

/-- Witness of C15: on the open path graph on three vertices the call at
`pos = 2` with `0, 1` placed fails, and the path is as before. -/
theorem hamWalk_undo_witness :
    hamWalk [[false, true, false], [true, false, true], [false, true, false]] 3
        [0, 1, -1] 2 false = Res.ok (false, [0, 1, -1]) ∧
      ([0, 1, -1] : List Int) = [0, 1, -1] :=
  ⟨by decide,
    (hamWalk_undo [[false, true, false], [true, false, true], [false, true, false]] 3
      false).1 [0, 1, -1] 2 [0, 1, -1] (by decide) (by decide)⟩

/-! ## The order in which makeGraph draws its samples -/

theorem rowStart_closed (n : Nat) :
    ∀ i : Nat, i ≤ n → 2 * rowStart n i + i * (i + 1) = 2 * i * n := by
  intro i
  induction i with
  | zero => intro _; simp [rowStart]
  | succ i ih =>
    intro hi
    have h := ih (by omega)
    obtain ⟨d, rfl⟩ : ∃ d, n = i + 1 + d := ⟨n - (i + 1), by omega⟩
    have hsub : i + 1 + d - 1 - i = d := by omega
    simp only [rowStart, hsub]
    nlinarith [h]

theorem rowStart_total (n : Nat) : rowStart n n = n * (n - 1) / 2 := by
  have h := rowStart_closed n n (le_refl n)
  have h2 : 2 * rowStart n n = n * (n - 1) := by
    cases n with
    | zero => simp [rowStart]
    | succ m =>
      simp only [Nat.add_sub_cancel] at h ⊢
      nlinarith [h]
  omega

theorem rowStart_mono (n : Nat) (i : Nat) : ∀ k : Nat, rowStart n i ≤ rowStart n (i + k) := by
  intro k
  induction k with
  | zero => exact le_refl _
  | succ k ih =>
    have h : i + (k + 1) = (i + k) + 1 := by omega
    rw [h, rowStart]
    omega

theorem pairIndex_bounds (n i j : Nat) (hij : i < j) (hj : j < n) :
    rowStart n i ≤ pairIndex n i j ∧ pairIndex n i j < rowStart n (i + 1) := by
  unfold pairIndex
  rw [rowStart]
  omega

theorem pairIndex_lt_iff (n i j i2 j2 : Nat) (hij : i < j) (hj : j < n) (hij2 : i2 < j2)
    (hj2 : j2 < n) :
    pairIndex n i j < pairIndex n i2 j2 ↔ i < i2 ∨ (i = i2 ∧ j < j2) := by
  have h1 := pairIndex_bounds n i j hij hj
  have h2 := pairIndex_bounds n i2 j2 hij2 hj2
  rcases Nat.lt_trichotomy i i2 with hlt | heq | hgt
  · have h3 := rowStart_mono n (i + 1) (i2 - (i + 1))
    have h4 : i + 1 + (i2 - (i + 1)) = i2 := by omega
    rw [h4] at h3
    constructor
    · intro _; exact Or.inl hlt
    · intro _; omega
  · subst heq
    unfold pairIndex
    omega
  · have h3 := rowStart_mono n (i2 + 1) (i - (i2 + 1))
    have h4 : i2 + 1 + (i - (i2 + 1)) = i := by omega
    rw [h4] at h3
    constructor
    · intro _; omega
    · intro h; omega

theorem pairIndex_surj (n : Nat) :
    ∀ m : Nat, m ≤ n → ∀ k : Nat, k < rowStart n m →
      ∃ i j : Nat, i < j ∧ j < n ∧ pairIndex n i j = k := by
  intro m
  induction m with
  | zero => intro _ k hk; simp [rowStart] at hk
  | succ m ih =>
    intro hm k hk
    by_cases hlt : k < rowStart n m
    · exact ih (by omega) k hlt
    · rw [rowStart] at hk
      refine ⟨m, m + 1 + (k - rowStart n m), by omega, by omega, ?_⟩
      unfold pairIndex
      omega

/-- C17: the generator. For every `n`-by-`n` matrix, rate and random stream,
`makeGraph` consumes exactly `n(n-1)/2` values of the stream; the pair `(i, j)`,
`i < j`, uses value number `pairIndex n i j` counted from the start, and both
`graph[i][j]` and `graph[j][i]` are set to the truth value of
`sample <= rate` for that value's `sample = value % 100`; the pairs use the
values in row-major order of `(i, j)`, and every value consumed is used by
some pair. -/
theorem makeGraph_samples (graph : Graph) (n rate : Int) (rand : Nat → Nat) (s : Nat)
    (hsq : Square graph n.toNat) :
    ∃ g', makeGraph graph n rate rand s = Res.ok (g', s + n.toNat * (n.toNat - 1) / 2) ∧
      (∀ i j : Nat, i < j → j < n.toNat →
        rand (s + pairIndex n.toNat i j) % 100 < 100 ∧
        readGraph g' (i : Int) (j : Int)
          = Res.ok (decide (((rand (s + pairIndex n.toNat i j) % 100 : Nat) : Int) ≤ rate)) ∧
        readGraph g' (j : Int) (i : Int)
          = Res.ok (decide (((rand (s + pairIndex n.toNat i j) % 100 : Nat) : Int) ≤ rate))) ∧
      (∀ i j i2 j2 : Nat, i < j → j < n.toNat → i2 < j2 → j2 < n.toNat →
        (pairIndex n.toNat i j < pairIndex n.toNat i2 j2 ↔ i < i2 ∨ (i = i2 ∧ j < j2))) ∧
      (∀ i j : Nat, i < j → j < n.toNat →
        pairIndex n.toNat i j < n.toNat * (n.toNat - 1) / 2) ∧
      (∀ k : Nat, k < n.toNat * (n.toNat - 1) / 2 →
        ∃ i j : Nat, i < j ∧ j < n.toNat ∧ pairIndex n.toNat i j = k) := by
  obtain ⟨g', hrun, _, hr⟩ := makeGraph_spec graph n rate rand s hsq
  rw [rowStart_total] at hrun
  refine ⟨g', hrun, ?_, ?_, ?_, ?_⟩
  · intro i j hij hj
    refine ⟨Nat.mod_lt _ (by decide), ?_, ?_⟩
    · rw [hr i j (by omega) hj, if_neg (by omega)]
      have h1 : min i j = i := by omega
      have h2 : max i j = j := by omega
      rw [h1, h2]
      rfl
    · rw [hr j i hj (by omega), if_neg (by omega)]
      have h1 : min j i = i := by omega
      have h2 : max j i = j := by omega
      rw [h1, h2]
      rfl
  · intro i j i2 j2 hij hj hij2 hj2
    exact pairIndex_lt_iff n.toNat i j i2 j2 hij hj hij2 hj2
  · intro i j hij hj
    have h1 := (pairIndex_bounds n.toNat i j hij hj).2
    have h2 := rowStart_mono n.toNat (i + 1) (n.toNat - (i + 1))
    have h3 : i + 1 + (n.toNat - (i + 1)) = n.toNat := by omega
    rw [h3, rowStart_total] at h2
    omega
  · intro k hk
    rw [← rowStart_total] at hk
    exact pairIndex_surj n.toNat n.toNat (le_refl _) k hk

/-- Witness of C17: three vertices, rate 15, the random stream `7, 50, 115`
(samples 7, 50, 15): the pairs `(0,1)`, `(0,2)`, `(1,2)` use the values number
0, 1, 2. -/
theorem makeGraph_samples_witness :
    makeGraph [[true, true, true], [true, true, true], [true, true, true]] 3 15
        (fun k => if k = 0 then 7 else if k = 1 then 50 else 115) 0
      = Res.ok ([[false, true, false], [true, false, true], [false, true, false]], 3) ∧
    ∃ g', makeGraph [[true, true, true], [true, true, true], [true, true, true]] 3 15
        (fun k => if k = 0 then 7 else if k = 1 then 50 else 115) 0
        = Res.ok (g', 0 + (3 : Int).toNat * ((3 : Int).toNat - 1) / 2) ∧
      (∀ i j : Nat, i < j → j < (3 : Int).toNat →
        (fun k => if k = 0 then 7 else if k = 1 then 50 else 115)
          (0 + pairIndex (3 : Int).toNat i j) % 100 < 100 ∧
        readGraph g' (i : Int) (j : Int)
          = Res.ok (decide ((((fun k => if k = 0 then 7 else if k = 1 then 50 else 115)
              (0 + pairIndex (3 : Int).toNat i j) % 100 : Nat) : Int) ≤ 15)) ∧
        readGraph g' (j : Int) (i : Int)
          = Res.ok (decide ((((fun k => if k = 0 then 7 else if k = 1 then 50 else 115)
              (0 + pairIndex (3 : Int).toNat i j) % 100 : Nat) : Int) ≤ 15))) ∧
      (∀ i j i2 j2 : Nat, i < j → j < (3 : Int).toNat → i2 < j2 → j2 < (3 : Int).toNat →
        (pairIndex (3 : Int).toNat i j < pairIndex (3 : Int).toNat i2 j2
          ↔ i < i2 ∨ (i = i2 ∧ j < j2))) ∧
      (∀ i j : Nat, i < j → j < (3 : Int).toNat →
        pairIndex (3 : Int).toNat i j < (3 : Int).toNat * ((3 : Int).toNat - 1) / 2) ∧
      (∀ k : Nat, k < (3 : Int).toNat * ((3 : Int).toNat - 1) / 2 →
        ∃ i j : Nat, i < j ∧ j < (3 : Int).toNat ∧ pairIndex (3 : Int).toNat i j = k) :=
  ⟨by decide,
    makeGraph_samples [[true, true, true], [true, true, true], [true, true, true]] 3 15
      (fun k => if k = 0 then 7 else if k = 1 then 50 else 115) 0 (by decide)⟩

/-! ## Termination and access safety -/

theorem hamLoop_congr (walk walk2 : List Int → Res (Bool × List Int)) (graph : Graph)
    (pos m : Int) (I J : List Int → Prop)
    (hstep : ∀ path v path1, I path → 1 ≤ v → v < m → isSafe v graph path pos = Res.ok true →
      writePath path pos v = Res.ok path1 → J path1)
    (hback : ∀ path1 out path2, J path1 → walk path1 = Res.ok (false, out) →
      writePath out pos (-1) = Res.ok path2 → I path2)
    (hagree : ∀ p, J p → walk p = walk2 p) :
    ∀ (k : Nat) (v : Int) (path : List Int), v + k = m → 1 ≤ v → I path →
      hamLoop walk graph pos k v path = hamLoop walk2 graph pos k v path := by
  intro k
  induction k with
  | zero => intro v path _ _ _; rfl
  | succ k ih =>
    intro v path hv hv1 hI
    rw [hamLoop, hamLoop]
    cases hsafe : isSafe v graph path pos with
    | fault e => rfl
    | ok safe =>
      rw [Res.bind_ok, Res.bind_ok]
      cases safe with
      | false =>
        simp only [Bool.false_eq_true, if_false]
        exact ih (v + 1) path (by omega) (by omega) hI
      | true =>
        simp only [if_true]
        cases hw : writePath path pos v with
        | fault e => rfl
        | ok path1 =>
          rw [Res.bind_ok, Res.bind_ok]
          have hJ : J path1 := hstep path v path1 hI hv1 (by omega) hsafe hw
          rw [← hagree path1 hJ]
          cases hr : walk path1 with
          | fault e => rfl
          | ok r =>
            rw [Res.bind_ok, Res.bind_ok]
            obtain ⟨b, out⟩ := r
            cases b with
            | true => rfl
            | false =>
              simp only [Bool.false_eq_true, if_false]
              cases hw2 : writePath out pos (-1) with
              | fault e => rfl
              | ok path2 =>
                rw [Res.bind_ok, Res.bind_ok]
                exact ih (v + 1) path2 (by omega) (by omega) (hback path1 out path2 hJ hr hw2)

theorem hamWalkFuel_fuel (graph : Graph) (n : Int) (sleepy : Bool) :
    ∀ (fuel fuel2 : Nat) (path : List Int) (pos : Int),
      hamFuel n path pos ≤ fuel → hamFuel n path pos ≤ fuel2 →
      hamWalkFuel fuel graph n path pos sleepy = hamWalkFuel fuel2 graph n path pos sleepy := by
  intro fuel
  induction fuel with
  | zero => intro fuel2 path pos h; unfold hamFuel at h; omega
  | succ fuel ih =>
    intro fuel2 path pos h1 h2
    cases fuel2 with
    | zero => unfold hamFuel at h2; omega
    | succ fuel2 =>
      simp only [hamWalkFuel]
      by_cases hpos : pos = n
      · rw [if_pos hpos, if_pos hpos]
      · rw [if_neg hpos, if_neg hpos]
        have hfuel : ∀ p : List Int, p.length = path.length → 0 ≤ pos →
            pos.toNat < path.length →
            hamFuel n p (pos + 1) ≤ fuel ∧ hamFuel n p (pos + 1) ≤ fuel2 := by
          intro p hp hp0 hplt
          unfold hamFuel at h1 h2 ⊢
          rw [hp]
          omega
        apply hamLoop_congr _ _ graph pos (1 + (((n - 1).toNat : Nat) : Int))
          (fun p => p.length = path.length)
          (fun p => p.length = path.length ∧ 0 ≤ pos ∧ pos.toNat < path.length)
        · intro p v p1 hp _ _ _ hw
          obtain ⟨hlen, hp0, hplt⟩ := (writePath_ok p pos v).2 p1 hw
          exact ⟨by omega, hp0, by omega⟩
        · intro p1 out p2 hJ hr hw
          have hlen1 := (hamWalkFuel_total graph n sleepy fuel p1 (pos + 1)
            (hfuel p1 hJ.1 hJ.2.1 hJ.2.2).1).2 _ hr
          have hlen2 := ((writePath_ok out pos (-1)).2 p2 hw).1
          simp only at hlen1
          omega
        · intro p hJ
          exact ih fuel2 p (pos + 1) (hfuel p hJ.1 hJ.2.1 hJ.2.2).1 (hfuel p hJ.1 hJ.2.1 hJ.2.2).2
        · rfl
        · exact le_refl _
        · rfl

theorem hamLoop_ok (graph : Graph) (n : Nat) (hsq : Square graph n) (init : List Int)
    (last : Int) (pos : Int) (hpos : pos = init.length + 1) (hlast : 0 ≤ last ∧ last < n)
    (m : Nat) (walk : List Int → Res (Bool × List Int))
    (hwalk : ∀ (v : Int) (js : List Int), js.length = m → 1 ≤ v → v < n →
      ∃ b out, walk ((init ++ [last]) ++ v :: js) = Res.ok (b, out) ∧
        (b = false → ∃ js2, out = (init ++ [last]) ++ v :: js2 ∧ js2.length = m)) :
    ∀ (k : Nat) (v : Int) (junk : List Int), v + k = n → 1 ≤ v → junk.length = m + 1 →
      ∃ b out, hamLoop walk graph pos k v (init ++ last :: junk) = Res.ok (b, out) ∧
        (b = false → ∃ junk2, out = init ++ last :: junk2 ∧ junk2.length = m + 1) := by
  intro k
  induction k with
  | zero =>
    intro v junk _ _ hjunk
    exact ⟨false, _, rfl, fun _ => ⟨junk, rfl, hjunk⟩⟩
  | succ k ih =>
    intro v junk hv hv1 hjunk
    have hvn : v < n := by omega
    cases junk with
    | nil => simp at hjunk
    | cons j js =>
      have hjs : js.length = m := by simpa using hjunk
      rw [hamLoop, isSafe_state graph n hsq init last (j :: js) pos v hpos hlast ⟨by omega, hvn⟩,
        Res.bind_ok]
      by_cases hsafe : Edge graph last v ∧ v ∉ init ++ [last]
      · rw [decide_eq_true hsafe, if_pos rfl, writePath_next init last j js pos v hpos,
          Res.bind_ok]
        obtain ⟨b, out, hw, hpost⟩ := hwalk v js hjs hv1 hvn
        rw [hw, Res.bind_ok]
        cases b with
        | true =>
          exact ⟨true, out, by simp, fun h => Bool.noConfusion h⟩
        | false =>
          obtain ⟨js2, hout, hlen2⟩ := hpost rfl
          have hout2 : out = init ++ last :: v :: js2 := by simp [hout]
          have hwrite : writePath out pos (-1) = Res.ok (init ++ last :: (-1) :: js2) := by
            rw [hout2, writePath_next init last v js2 pos (-1) hpos]
            simp
          simp only [Bool.false_eq_true, if_false]
          rw [hwrite, Res.bind_ok]
          exact ih (v + 1) ((-1) :: js2) (by omega) (by omega) (by simp [hlen2])
      · rw [decide_eq_false hsafe]
        simp only [Bool.false_eq_true, if_false]
        exact ih (v + 1) (j :: js) (by omega) (by omega) hjunk

theorem hamWalkFuel_ok (graph : Graph) (n : Nat) (hsq : Square graph n) (sleepy : Bool) :
    ∀ (fuel : Nat) (init : List Int) (last : Int) (junk : List Int) (pos : Int),
      pos = init.length + 1 → junk.length < fuel → init.length + 1 + junk.length = n →
      (∀ x ∈ init ++ [last], 0 ≤ x ∧ x < (n : Int)) →
      ∃ b out, hamWalkFuel fuel graph n (init ++ last :: junk) pos sleepy = Res.ok (b, out) ∧
        (b = false → ∃ junk2, out = init ++ last :: junk2 ∧ junk2.length = junk.length) := by
  intro fuel
  induction fuel with
  | zero => intro _ _ junk _ _ h; exact absurd h (Nat.not_lt_zero _)
  | succ fuel ih =>
    intro init last junk pos hpos hfuel hlen hrange
    have hlast : 0 ≤ last ∧ last < (n : Int) := hrange last (by simp)
    cases junk with
    | nil =>
      have hposn : pos = (n : Int) := by simp at hlen; omega
      obtain ⟨first, hfirst⟩ : ∃ first, (init ++ [last]).head? = some first := by
        cases init with
        | nil => exact ⟨last, rfl⟩
        | cons a as => exact ⟨a, rfl⟩
      obtain ⟨e, he⟩ := readGraph_square graph n hsq last first hlast
        (hrange first (List.mem_of_mem_head? hfirst))
      refine ⟨e, init ++ [last], ?_, fun _ => ⟨[], rfl, rfl⟩⟩
      simp only [hamWalkFuel]
      rw [if_pos hposn, readPath_last init last [] pos hpos, Res.bind_ok,
        readPath_first init last [] first hfirst, Res.bind_ok, he, Res.bind_ok]
    | cons j js =>
      have hlen2 : init.length + 1 + (js.length + 1) = n := by simpa using hlen
      have hposn : ¬ pos = (n : Int) := by omega
      simp only [hamWalkFuel]
      rw [if_neg hposn]
      have h := hamLoop_ok graph n hsq init last pos hpos hlast js.length
        (fun p => hamWalkFuel fuel graph n p (pos + 1) sleepy)
        (by
          intro v js2 hjs2 hv1 hvn
          have hfuel2 : js2.length < fuel := by
            simp only [List.length_cons] at hfuel; omega
          have h2 := ih (init ++ [last]) v js2 (pos + 1) (by simp; omega) hfuel2
            (by simp; omega)
            (by
              intro x hx
              rcases List.mem_append.1 hx with h | h
              · exact hrange x h
              · have : x = v := by simpa using h
                omega)
          obtain ⟨b, out, hrun, hpost⟩ := h2
          refine ⟨b, out, hrun, ?_⟩
          intro hb
          obtain ⟨js3, ho, hl⟩ := hpost hb
          exact ⟨js3, ho, by omega⟩)
        ((n : Int) - 1).toNat 1 (j :: js) (by omega) (le_refl _) (by simp)
      obtain ⟨b, out, hrun, hpost⟩ := h
      exact ⟨b, out, hrun, fun hb => by simpa using hpost hb⟩

theorem path_split (path : List Int) (p : Nat) (hp : p < path.length) :
    path = path.take p ++ path[p] :: path.drop (p + 1) := by
  rw [← List.drop_eq_getElem_cons hp, List.take_append_drop]

theorem hamWalk_ok (graph : Graph) (n : Int) (hsq : Square graph n.toNat) (sleepy : Bool)
    (path : List Int) (pos : Int) (hlen : path.length = n.toNat) (hpos1 : 1 ≤ pos)
    (hposn : pos ≤ n) (hrange : ∀ x ∈ path.take pos.toNat, 0 ≤ x ∧ x < n) :
    hamFuel n path pos = (n - pos).toNat + 1 ∧
      ∃ b out, hamWalk graph n path pos sleepy = Res.ok (b, out) ∧ out.length = path.length := by
  have hfuel : hamFuel n path pos = (n - pos).toNat + 1 := by
    unfold hamFuel
    rw [hlen]
    omega
  refine ⟨hfuel, ?_⟩
  obtain ⟨N, rfl⟩ : ∃ N : Nat, n = N := ⟨n.toNat, by omega⟩
  obtain ⟨p, rfl⟩ : ∃ p : Nat, pos = (p : Int) + 1 := ⟨(pos - 1).toNat, by omega⟩
  simp only [Int.toNat_ofNat] at hsq hlen
  have hp : p < path.length := by omega
  have hsplit := path_split path p hp
  have htake : path.take ((p : Int) + 1).toNat = path.take p ++ [path[p]] := by
    have h1 : ((p : Int) + 1).toNat = p + 1 := by omega
    rw [h1, List.take_succ, List.getElem?_eq_getElem hp]
    rfl
  rw [htake] at hrange
  have h := hamWalkFuel_ok graph N hsq sleepy (hamFuel N path ((p : Int) + 1)) (path.take p)
    path[p] (path.drop (p + 1)) ((p : Int) + 1)
    (by simp [List.length_take]; omega)
    (by rw [hfuel]; simp only [List.length_drop]; omega)
    (by simp only [List.length_take, List.length_drop]; omega)
    hrange
  rw [← hsplit] at h
  obtain ⟨b, out, hrun, _⟩ := h
  refine ⟨b, out, hrun, ?_⟩
  exact (hamWalkFuel_total graph N sleepy _ path _ (le_refl _)).2 _ hrun

/-- C16: the search always terminates. For every graph, `n`, path and `pos`
the fuel that `hamWalk` supplies is never exhausted, and any larger fuel gives
the same result: the depth of the recursion is bounded. For every `n ≥ 1`, every
`n`-by-`n` matrix and every start state with `1 ≤ pos ≤ n` (a path of `n` slots
whose assigned slots hold vertex ids), the depth is at most `n - pos + 1` and
`hamWalk` returns true or false. -/
theorem hamWalk_terminates (graph : Graph) (n : Int) (sleepy : Bool) :
    (∀ (path : List Int) (pos : Int),
      hamWalk graph n path pos sleepy ≠ Res.fault Fault.outOfFuel ∧
      ∀ fuel, hamFuel n path pos ≤ fuel →
        hamWalkFuel fuel graph n path pos sleepy = hamWalk graph n path pos sleepy) ∧
    (1 ≤ n → Square graph n.toNat → ∀ (path : List Int) (pos : Int),
      path.length = n.toNat → 1 ≤ pos → pos ≤ n →
      (∀ x ∈ path.take pos.toNat, 0 ≤ x ∧ x < n) →
      hamFuel n path pos = (n - pos).toNat + 1 ∧
      ∃ b out, hamWalk graph n path pos sleepy = Res.ok (b, out)) := by
  constructor
  · intro path pos
    refine ⟨(hamWalkFuel_total graph n sleepy _ path pos (le_refl _)).1, ?_⟩
    intro fuel hfuel
    exact hamWalkFuel_fuel graph n sleepy fuel _ path pos hfuel (le_refl _)
  · intro _ hsq path pos hlen hpos1 hposn hrange
    obtain ⟨hfuel, b, out, hrun, _⟩ :=
      hamWalk_ok graph n hsq sleepy path pos hlen hpos1 hposn hrange
    exact ⟨hfuel, b, out, hrun⟩

/-- Witness of C16: on the open path graph on three vertices, the call at
`pos = 2` with `0, 1` placed returns false, with fuel 2 and with fuel 7. -/
theorem hamWalk_terminates_witness :
    hamFuel 3 [0, 1, -1] 2 = ((3 : Int) - 2).toNat + 1 ∧
      (∃ b out, hamWalk [[false, true, false], [true, false, true], [false, true, false]] 3
        [0, 1, -1] 2 false = Res.ok (b, out)) ∧
      hamWalkFuel 7 [[false, true, false], [true, false, true], [false, true, false]] 3
          [0, 1, -1] 2 false
        = hamWalk [[false, true, false], [true, false, true], [false, true, false]] 3
          [0, 1, -1] 2 false :=
  ⟨((hamWalk_terminates [[false, true, false], [true, false, true], [false, true, false]] 3
      false).2 (by decide) (by decide) [0, 1, -1] 2 (by decide) (by decide) (by decide)
      (by decide)).1,
    ((hamWalk_terminates [[false, true, false], [true, false, true], [false, true, false]] 3
      false).2 (by decide) (by decide) [0, 1, -1] 2 (by decide) (by decide) (by decide)
      (by decide)).2,
    ((hamWalk_terminates [[false, true, false], [true, false, true], [false, true, false]] 3
      false).1 [0, 1, -1] 2).2 7 (by decide)⟩

/-- C19: index safety of the search. For every `n ≥ 1` and every `n`-by-`n`
matrix, `hamiltonian` runs to its end without an access fault. Every access of
the run goes through `readGraph`, `readPath` and `writePath`, a fault of which
ends the run; these succeed only for indices in `[0, n)`, so every adjacency
lookup has `0 ≤ a < n` and `0 ≤ b < n` and every path access uses an index in
`[0, n)`. In particular `-1` is never a row or column index, and `path[n]` is
never written. -/
theorem hamiltonian_index_safe (graph : Graph) (n : Int) (hn : 1 ≤ n)
    (hsq : Square graph n.toNat) (sleepy verbose : Bool) :
    (∃ b path, hamiltonian graph n sleepy verbose = Res.ok (b, path) ∧
      path.length = n.toNat) ∧
    (∀ (a b : Int) (e : Bool), readGraph graph a b = Res.ok e →
      0 ≤ a ∧ a < n ∧ 0 ≤ b ∧ b < n) ∧
    (∀ (p : List Int) (i x : Int), p.length = n.toNat → readPath p i = Res.ok x →
      0 ≤ i ∧ i < n) ∧
    (∀ (p : List Int) (i x : Int) (out : List Int), p.length = n.toNat →
      writePath p i x = Res.ok out → 0 ≤ i ∧ i < n ∧ out.length = n.toNat) ∧
    (∀ b : Int, readGraph graph (-1) b = Res.fault Fault.outOfBounds ∧
      readGraph graph b (-1) = Res.fault Fault.outOfBounds) ∧
    (∀ (p : List Int) (x : Int), p.length = n.toNat →
      writePath p n x = Res.fault Fault.outOfBounds) := by
  refine ⟨?_, ?_, ?_, ?_, ?_, ?_⟩
  · rcases hamiltonian_cases graph n hn hsq sleepy verbose with
      ⟨path, hrun, hcyc, _⟩ | ⟨hfail, _⟩
    · refine ⟨true, path, hrun, ?_⟩
      have hn2 : ((n.toNat : Nat) : Int) = n := by omega
      rw [← hn2] at hcyc
      exact ((perm_vertices_iff n.toNat path).1 hcyc.1).1
    · refine ⟨false, _, hfail, ?_⟩
      simp only [List.length_cons, List.length_replicate]
      omega
  · intro a b e h
    have := readGraph_ok_bounds graph n.toNat hsq a b e h
    omega
  · intro p i x hlen h
    obtain ⟨h0, hget⟩ := (readPath_ok_iff p i x).1 h
    have := (List.getElem?_eq_some.1 hget).1
    omega
  · intro p i x out hlen h
    obtain ⟨hout, h0, hlt⟩ := writePath_eq p i x out h
    refine ⟨h0, by omega, ?_⟩
    rw [hout, List.length_set]
    exact hlen
  · intro b
    constructor
    · unfold readGraph
      rw [if_neg (by omega)]
    · unfold readGraph
      rw [if_neg (by omega)]
  · intro p x hlen
    unfold writePath
    rw [if_neg (by omega)]

/-- Witness of C19: the triangle. -/
theorem hamiltonian_index_safe_witness :
    ∃ b path, hamiltonian [[false, true, true], [true, false, true], [true, true, false]] 3
      false false = Res.ok (b, path) ∧ path.length = (3 : Int).toNat :=
  (hamiltonian_index_safe [[false, true, true], [true, false, true], [true, true, false]] 3
    (by decide) (by decide) false false).1

/-! ## The invariant of the path -/

theorem pathInv_state (n : Nat) (init : List Int) (last : Int) (junk : List Int) (pos : Int)
    (hpos : pos = init.length + 1) (hlen : init.length + 1 + junk.length = n)
    (hfirst : (init ++ [last]).head? = some 0)
    (hrange : ∀ x ∈ init ++ [last], 0 ≤ x ∧ x < (n : Int)) (hnd : (init ++ [last]).Nodup)
    (hfree : ∀ x ∈ junk, x = -1) : PathInv n (init ++ last :: junk) pos := by
  have h1 : pos.toNat = (init ++ [last]).length := by simp; omega
  have h2 : init ++ last :: junk = (init ++ [last]) ++ junk := by simp
  have htake : (init ++ last :: junk).take pos.toNat = init ++ [last] := by
    rw [h1, h2, List.take_left]
  have hdrop : (init ++ last :: junk).drop pos.toNat = junk := by
    rw [h1, h2, List.drop_left]
  refine ⟨by omega, by omega, readPath_first init last junk 0 hfirst, ?_, ?_, ?_⟩
  · rw [htake]; exact hnd
  · rw [htake]; exact hrange
  · rw [hdrop]; exact hfree

theorem hamWalkChecked_eq (graph : Graph) (n : Nat) (hsq : Square graph n) (sleepy : Bool) :
    ∀ (fuel : Nat) (init : List Int) (last : Int) (junk : List Int) (pos : Int),
      pos = init.length + 1 → init.length + 1 + junk.length = n →
      (init ++ [last]).head? = some 0 →
      (∀ x ∈ init ++ [last], 0 ≤ x ∧ x < (n : Int)) → (init ++ [last]).Nodup →
      (∀ x ∈ junk, x = -1) →
      hamWalkChecked fuel graph n (init ++ last :: junk) pos sleepy
        = hamWalkFuel fuel graph n (init ++ last :: junk) pos sleepy := by
  intro fuel
  induction fuel with
  | zero => intro _ _ _ _ _ _ _ _ _ _; rfl
  | succ fuel ih =>
    intro init last junk pos hpos hlen hfirst hrange hnd hfree
    have hinv := pathInv_state n init last junk pos hpos hlen hfirst hrange hnd hfree
    have hlast : 0 ≤ last ∧ last < (n : Int) := hrange last (by simp)
    simp only [hamWalkChecked, hamWalkFuel]
    rw [if_pos hinv]
    by_cases hposn : pos = (n : Int)
    · rw [if_pos hposn, if_pos hposn]
    · rw [if_neg hposn, if_neg hposn]
      cases junk with
      | nil => simp at hlen; omega
      | cons j js =>
        have hj : j = -1 := hfree j (List.mem_cons_self _ _)
        have hjs : ∀ x ∈ js, x = -1 := fun x hx => hfree x (List.mem_cons_of_mem _ hx)
        have hlen2 : init.length + 1 + (js.length + 1) = n := by simpa using hlen
        symm
        apply hamLoop_congr _ _ graph pos (1 + ((((n : Int) - 1).toNat : Nat) : Int))
          (fun p => p = init ++ last :: j :: js)
          (fun p => ∃ v : Int, 1 ≤ v ∧ v < (n : Int) ∧ v ∉ init ++ [last] ∧
            p = (init ++ [last]) ++ v :: js)
        · intro p v p1 hp hv1 hvm hsafe hw
          rw [hp] at hsafe hw
          have hvn : v < (n : Int) := by omega
          rw [isSafe_state graph n hsq init last (j :: js) pos v hpos hlast
            ⟨by omega, hvn⟩] at hsafe
          have hs : Edge graph last v ∧ v ∉ init ++ [last] :=
            of_decide_eq_true (Res.ok.inj hsafe)
          rw [writePath_next init last j js pos v hpos] at hw
          exact ⟨v, hv1, hvn, hs.2, (Res.ok.inj hw).symm⟩
        · intro p1 out p2 hJ hr hw
          obtain ⟨v, _, _, _, hp1⟩ := hJ
          have hfree1 : ∀ x ∈ p1.drop (pos + 1).toNat, x = -1 := by
            intro x hx
            have h1 : (pos + 1).toNat = ((init ++ [last]) ++ [v]).length := by simp; omega
            have h2 : p1 = ((init ++ [last]) ++ [v]) ++ js := by rw [hp1]; simp
            rw [h1, h2, List.drop_left] at hx
            exact hjs x hx
          have hout : out = p1 := hamWalkFuel_restore graph n sleepy fuel p1 (pos + 1) out hfree1 hr
          have hp1b : p1 = init ++ last :: v :: js := by rw [hp1]; simp
          rw [hout, hp1b, writePath_next init last v js pos (-1) hpos] at hw
          rw [← Res.ok.inj hw, hj]
          simp
        · intro p hJ
          obtain ⟨v, hv1, hvn, hvmem, hp⟩ := hJ
          rw [hp]
          symm
          apply ih (init ++ [last]) v js (pos + 1)
          · simp; omega
          · simp; omega
          · rw [List.head?_append_of_ne_nil _ (by simp)]; exact hfirst
          · intro x hx
            rcases List.mem_append.1 hx with h | h
            · exact hrange x h
            · have : x = v := by simpa using h
              omega
          · rw [List.nodup_append]
            refine ⟨hnd, by simp, ?_⟩
            intro a ha1 ha2
            have : a = v := by simpa using ha2
            exact hvmem (this ▸ ha1)
          · exact hjs
        · rfl
        · exact le_refl _
        · rfl

/-- C14: the PathState invariant. For every `n ≥ 1` and every `n`-by-`n`
matrix, the run of `hamiltonian` in which every call of `hamWalk` first checks
`PathInv` (`1 ≤ pos ≤ n`, `path[0] = 0`, assigned slots pairwise distinct vertex
ids in `[0, n)`, every slot at an index `≥ pos` equal to `-1`) never fails the
check: it returns a flag and a path, the same ones as the run without checks. A
call that violates the invariant would end the run with
`Fault.invariantViolated`. -/
theorem pathInv_at_every_call (graph : Graph) (n : Int) (hn : 1 ≤ n)
    (hsq : Square graph n.toNat) (sleepy verbose : Bool) :
    (∃ b path, hamiltonianChecked graph n sleepy verbose = Res.ok (b, path) ∧
      hamiltonian graph n sleepy verbose = Res.ok (b, path)) ∧
    (∀ (fuel : Nat) (path : List Int) (pos : Int), ¬ PathInv n path pos →
      hamWalkChecked (fuel + 1) graph n path pos sleepy
        = Res.fault Fault.invariantViolated) := by
  constructor
  · obtain ⟨N, rfl⟩ : ∃ N : Nat, n = N := ⟨n.toNat, by omega⟩
    simp only [Int.toNat_ofNat] at hsq
    obtain ⟨M, rfl⟩ : ∃ M, N = M + 1 := ⟨N - 1, by omega⟩
    obtain ⟨b, out, hrun, _⟩ := hamiltonian_spec graph (M + 1) (by omega) hsq sleepy verbose
    refine ⟨b, out, ?_, hrun⟩
    rw [← hrun]
    have hw : writePath (List.replicate (((M + 1 : Nat) : Int)).toNat (-1)) 0 0
        = Res.ok (0 :: List.replicate M (-1)) := by
      unfold writePath
      simp [List.replicate_succ]
    unfold hamiltonianChecked hamiltonian hamWalk
    rw [hw, Res.bind_ok, Res.bind_ok]
    have h := hamWalkChecked_eq graph (M + 1) hsq sleepy
      (hamFuel ((M + 1 : Nat) : Int) (0 :: List.replicate M (-1)) 1) [] 0
      (List.replicate M (-1)) 1 (by simp) (by simp; omega) (by simp) (by simp) (by simp)
      (fun x hx => (List.mem_replicate.1 hx).2)
    simpa using h
  · intro fuel path pos hinv
    simp only [hamWalkChecked]
    rw [if_neg hinv]

/-- Witness of C14: on the graph with the edges {0,1}, {0,2}, {0,3}, {1,2},
{1,3}, where the search backtracks, the checked run returns the cycle
`0,2,1,3`. -/
theorem pathInv_at_every_call_witness :
    ∃ b path, hamiltonianChecked [[false, true, true, true], [true, false, true, true],
        [true, true, false, false], [true, true, false, false]] 4 false false
        = Res.ok (b, path) ∧
      hamiltonian [[false, true, true, true], [true, false, true, true],
        [true, true, false, false], [true, true, false, false]] 4 false false
        = Res.ok (b, path) :=
  (pathInv_at_every_call [[false, true, true, true], [true, false, true, true],
    [true, true, false, false], [true, true, false, false]] 4 (by decide) (by decide)
    false false).1

end HamWalk
